import Mathlib

/-!
Verification of the core record-reconciliation logic of
`scripts/python/mps/scrapeLoksabhaMPs.py`: constituency-name
canonicalization (`norm_constituency`), the Indian-currency text reader
(`parse_indian_money`), the crore unit conversion (`rupees_to_crores`),
the field-collision merge of MyNeta and Sansad records, and the main
merge loop over primary (MyNeta) records.

Modeling conventions:
- Python strings are lists of Unicode code points (`List Nat`);
  `strCodes` converts a Lean string literal to that form.
- Python `str.upper` / `str.lower` are modeled on the ASCII letters
  (all characters relevant to this script).
- Python whitespace (`str.strip`, regex `\s`) is the CPython whitespace
  set, given by `isSpaceCode`.
- Python floats that carry whole-rupee amounts are modeled as `ℤ`;
  `round(x, 2)` is modeled exactly on `ℚ` with round-half-to-even.
- The regex operations of the script are small enough to transcribe
  directly: `re.sub(r"\([^)]*\)", "", s)` drops, for every `(` that is
  followed by a `)`, everything from the `(` through the first such `)`
  (`removeParens`); `re.sub(r"\s+", " ", s)` collapses whitespace runs
  to one space (`collapseWs`); `re.sub(r"~.*", "", s)` drops from each
  `~` to the end of its line, since `.` does not match a newline
  (`stripTilde`); the searches are transcribed likewise below.
-/

/-- Code-point model of Python `str.upper` on one character (ASCII letters). -/
def toUpperCode (n : Nat) : Nat := if 97 ≤ n ∧ n ≤ 122 then n - 32 else n

/-- Code-point model of Python `str.lower` on one character (ASCII letters),
used for the case-insensitive regex searches of the script. -/
def toLowerCode (n : Nat) : Nat := if 65 ≤ n ∧ n ≤ 90 then n + 32 else n

/-- CPython's whitespace set: the characters stripped by `str.strip` and
matched by `\s` in a Unicode regex. -/
def isSpaceCode (n : Nat) : Bool :=
  decide (n = 32 ∨ n = 9 ∨ n = 10 ∨ n = 11 ∨ n = 12 ∨ n = 13 ∨ n = 28 ∨ n = 29 ∨ n = 30 ∨
    n = 31 ∨ n = 133 ∨ n = 160 ∨ n = 5760 ∨ (8192 ≤ n ∧ n ≤ 8202) ∨ n = 8232 ∨ n = 8233 ∨
    n = 8239 ∨ n = 8287 ∨ n = 12288)

/-- View of a Lean string literal as a list of Unicode code points. -/
def strCodes (s : String) : List Nat := s.data.map Char.toNat

/-- Model of Python `str.upper` on a whole string. -/
def pyUpper (l : List Nat) : List Nat := l.map toUpperCode

/-- Fuel-driven worker for `removeParens`; the fuel is only a termination
device and `removeParens` always supplies enough of it. -/
def rpGo : Nat → List Nat → List Nat
  | 0, l => l
  | _ + 1, [] => []
  | fuel + 1, c :: t =>
    if c = 40 ∧ 41 ∈ t then rpGo fuel ((t.dropWhile (fun d => d != 41)).tail)
    else c :: rpGo fuel t

/-- Model of `re.sub(r"\([^)]*\)", "", s)` from `norm_constituency`:
scanning left to right, a `(` that has some `)` after it is removed
together with everything up to and including the first such `)`. -/
def removeParens (l : List Nat) : List Nat := rpGo l.length l

/-- Fuel-driven worker for `collapseWs`. -/
def cwGo : Nat → List Nat → List Nat
  | 0, l => l
  | _ + 1, [] => []
  | fuel + 1, c :: t =>
    if isSpaceCode c then 32 :: cwGo fuel (t.dropWhile isSpaceCode) else c :: cwGo fuel t

/-- Model of `re.sub(r"\s+", " ", s)`: every maximal run of whitespace
becomes a single space (code 32). -/
def collapseWs (l : List Nat) : List Nat := cwGo l.length l

/-- Removal of trailing whitespace, the right half of Python `str.strip`. -/
def dropTrailingWs : List Nat → List Nat
  | [] => []
  | c :: t =>
    match dropTrailingWs t with
    | [] => if isSpaceCode c then [] else [c]
    | d :: u => c :: d :: u

/-- Model of Python `str.strip()`: leading and trailing whitespace removed. -/
def pyStrip (l : List Nat) : List Nat := dropTrailingWs (l.dropWhile isSpaceCode)

/-- Model of `s.replace("&", "and")` (codes: `&` is 38, `and` is 97 110 100). -/
def replaceAmp : List Nat → List Nat
  | [] => []
  | c :: t => if c = 38 then 97 :: 110 :: 100 :: replaceAmp t else c :: replaceAmp t

/-- Case-insensitive literal match at the head of a string: `matchLowerSeq
pat l` consumes `pat` (given in lowercase) from `l` comparing lowercased
characters, returning the rest of `l` on success. -/
def matchLowerSeq : List Nat → List Nat → Option (List Nat)
  | [], l => some l
  | _ :: _, [] => none
  | p :: ps, c :: cs => if toLowerCode c = p then matchLowerSeq ps cs else none

/-- Match of the part of `re.search(r":\s*BYE\s*ELECTION", s, re.IGNORECASE)`
after the colon: optional whitespace, `BYE`, optional whitespace,
`ELECTION`, case-insensitively (the code lists spell `bye` and
`election`).  Maximal whitespace munch is equivalent to the regex's
backtracking `\s*` because the letters that follow are not whitespace. -/
def byeTail (r : List Nat) : Bool :=
  match matchLowerSeq [98, 121, 101] (r.dropWhile isSpaceCode) with
  | some r2 => (matchLowerSeq [101, 108, 101, 99, 116, 105, 111, 110] (r2.dropWhile isSpaceCode)).isSome
  | none => false

/-- Match of the bye-election pattern anchored at the head of the string
(a colon, code 58, then `byeTail`). -/
def byeHere : List Nat → Bool
  | [] => false
  | c :: r => c == 58 && byeTail r

/-- Model of `re.search(r":\s*BYE\s*ELECTION", s, re.IGNORECASE) is not None`:
the pattern matches at some position of `s`. -/
def containsBye : List Nat → Bool
  | [] => false
  | c :: t => byeHere (c :: t) || containsBye t

/-- The static alias table `constituency_map` of `norm_constituency`,
transcribed verbatim from the source (18 entries, keys and values with
their exact spelling and case). -/
def constituency_map : List (List Nat × List Nat) :=
  [(strCodes ("BURDWAN - DURGAPUR"), strCodes ("Bardhaman-Durgapur")),
   (strCodes ("ANANTHAPUR"), strCodes ("Anantapur")),
   (strCodes ("COOCH BEHAR"), strCodes ("Coochbehar")),
   (strCodes ("THIRUPATHI"), strCodes ("Tirupati")),
   (strCodes ("NARSARAOPET"), strCodes ("Narasaraopet")),
   (strCodes ("HARIDWAR"), strCodes ("Hardwar")),
   (strCodes ("HATKANANGALE"), strCodes ("Hatkanangle")),
   (strCodes ("NAINITAL-UDHAM SINGH NAGAR"), strCodes ("Nainital-Udhamsingh Nagar")),
   (strCodes ("BHANDARA GONDIYA"), strCodes ("Bhandara-Gondiya")),
   (strCodes ("DARRANG-UDALGURI"), strCodes ("Darrang Udalguri")),
   (strCodes ("GADCHIROLI - CHIMUR"), strCodes ("Gadchiroli-Chimur")),
   (strCodes ("MUMBAI NORTH - CENTRAL"), strCodes ("Mumbai North Central")),
   (strCodes ("MUMBAI NORTH - EAST"), strCodes ("Mumbai North East")),
   (strCodes ("MUMBAI NORTH - WEST"), strCodes ("Mumbai North West")),
   (strCodes ("MUMBAI SOUTH - CENTRAL"), strCodes ("Mumbai South Central")),
   (strCodes ("RATNAGIRI - SINDHUDURG"), strCodes ("RATNAGIRI-SINDHUDURG")),
   (strCodes ("YAVATMAL - WASHIM"), strCodes ("YAVATMAL-WASHIM")),
   (strCodes ("DADAR AND NAGAR HAVELI"), strCodes ("Dadra and Nagar Haveli"))]

/-- Lookup `if s in constituency_map: s = constituency_map[s]`. -/
def lookupMap (s : List Nat) : Option (List Nat) :=
  (constituency_map.find? (fun p => p.1 == s)).map (fun p => p.2)

/-- Return value of `norm_constituency`: the Python function returns the
pair `("", "")` for a falsy argument and a single string otherwise. -/
inductive NormRet where
  | str (s : List Nat)
  | pair (a b : List Nat)
deriving DecidableEq

/-- Transcription of `norm_constituency` (the canonicalizer): parenthetical
removal and strip; bye-election detection and truncation at the first
colon; `&` to `and`; whitespace collapse, strip and uppercase; alias-table
substitution; final uppercase.  The empty argument short-circuits to the
pair `("", "")` exactly as in the source. -/
def norm_constituency (name : List Nat) : NormRet :=
  if name = [] then NormRet.pair [] []
  else
    let s1 := pyStrip (removeParens name)
    let s2 := if containsBye s1 then pyStrip (s1.takeWhile (fun d => d != 58)) else s1
    let s3 := replaceAmp s2
    let s4 := pyUpper (pyStrip (collapseWs s3))
    let s5 := match lookupMap s4 with
      | some v => v
      | none => s4
    NormRet.str (pyUpper s5)

/-- Stage one of `norm_constituency` on a nonempty argument: parenthetical
removal followed by strip (proof decomposition of the definition above). -/
def normS1 (x : List Nat) : List Nat := pyStrip (removeParens x)

/-- Stage two of `norm_constituency`: bye-election truncation at the first
colon, when the pattern is present. -/
def normS2 (x : List Nat) : List Nat :=
  if containsBye (normS1 x) then pyStrip ((normS1 x).takeWhile (fun d => d != 58)) else normS1 x

/-- Stages three to five of `norm_constituency`: ampersand replacement,
whitespace collapse, strip and uppercase — the value handed to the alias
lookup. -/
def normStages (x : List Nat) : List Nat := pyUpper (pyStrip (collapseWs (replaceAmp (normS2 x))))

/-- Fuel-driven worker for `stripTilde`. -/
def stGo : Nat → List Nat → List Nat
  | 0, l => l
  | _ + 1, [] => []
  | fuel + 1, c :: t =>
    if c = 126 then stGo fuel (t.dropWhile (fun d => d != 10)) else c :: stGo fuel t

/-- Model of `re.sub(r"~.*", "", value)`: from every `~` (code 126)
everything up to, but not including, the next newline is removed. -/
def stripTilde (l : List Nat) : List Nat := stGo l.length l

/-- Decimal digit test on code points (regex `\d`, ASCII part). -/
def isDigitCode (n : Nat) : Bool := decide (48 ≤ n ∧ n ≤ 57)

/-- Character class `[\s ]` of the `Rs` regex. -/
def isRsSpace (n : Nat) : Bool := isSpaceCode n || n == 160

/-- Character class `[\d,]` of the `Rs` regex (comma is code 44). -/
def isDigitComma (n : Nat) : Bool := isDigitCode n || n == 44

/-- Attempt to match `Rs[\s ]*([\d,]+)` at the head of the string
(codes 82 115 are `Rs`); returns the captured group on success. -/
def tryRs : List Nat → Option (List Nat)
  | c1 :: c2 :: rest =>
    if c1 = 82 ∧ c2 = 115 then
      let run := (rest.dropWhile isRsSpace).takeWhile isDigitComma
      if run = [] then none else some run
    else none
  | _ => none

/-- Model of `re.search(r"Rs[\s ]*([\d,]+)", cleaned)`: the first
position where the whole pattern matches wins. -/
def rsSearch : List Nat → Option (List Nat)
  | [] => none
  | c :: t =>
    match tryRs (c :: t) with
    | some g => some g
    | none => rsSearch t

/-- Numeric value of a list of decimal-digit code points. -/
def digitsVal (l : List Nat) : Nat := l.foldl (fun acc c => acc * 10 + (c - 48)) 0

/-- Transcription of `parse_indian_money`: empty and `"Nil"` give zero;
otherwise the tilde tail is removed, the `Rs` pattern searched, commas
removed from the captured group, and the digits parsed; any failure
degrades to zero.  The result is a whole number of rupees, modeled as `ℤ`
(the Python function returns it as a float). -/
def parse_indian_money (value : List Nat) : ℤ :=
  if value = [] then 0
  else if value = strCodes ("Nil") then 0
  else
    match rsSearch (stripTilde value) with
    | none => 0
    | some run =>
      let num_str := run.filter (fun c => c != 44)
      if num_str ≠ [] ∧ num_str.all isDigitCode then (digitsVal num_str : ℤ) else 0

/-- Argument model for `rupees_to_crores`: the Python function receives an
arbitrary value and tests `isinstance(value, (int, float))`; a numeric
argument is an exact rational, anything else is `nonNum`. -/
inductive PyNumber where
  | num (q : ℚ)
  | nonNum

/-- Round-half-to-even to an integer, the rounding of CPython's `round`
on exact values. -/
def roundHalfEven (x : ℚ) : ℤ :=
  if x - ⌊x⌋ < 1/2 then ⌊x⌋
  else if (1 : ℚ)/2 < x - ⌊x⌋ then ⌊x⌋ + 1
  else if ⌊x⌋ % 2 = 0 then ⌊x⌋ else ⌊x⌋ + 1

/-- Model of Python `round(q, 2)` on exact rationals. -/
def round2 (q : ℚ) : ℚ := ((roundHalfEven (q * 100) : ℤ) : ℚ) / 100

/-- Transcription of `rupees_to_crores`: non-numeric and falsy (zero)
arguments give `0.0`; otherwise the value is divided by `1e7` and rounded
to two decimals. -/
def rupees_to_crores : PyNumber → ℚ
  | PyNumber.nonNum => 0
  | PyNumber.num q => if q = 0 then 0 else round2 (q / 10000000)

/-- The net-worth projection of the main loop:
`rupees_to_crores(parse_indian_money(assets) - parse_indian_money(liabilities))`.
Total by construction: both readers degrade to zero on any input. -/
def networth (assets liabilities : List Nat) : ℚ :=
  rupees_to_crores (PyNumber.num ((parse_indian_money assets - parse_indian_money liabilities : ℤ) : ℚ))

/-- Keys of a Python dict modeled as an insertion-ordered association list. -/
def dictKeys {V : Type} (d : List (String × V)) : List String := d.map (fun p => p.1)

/-- Membership test `k in d` for the dict model. -/
def dictContains {V : Type} (d : List (String × V)) (k : String) : Bool := (dictKeys d).contains k

/-- Assignment `d[k] = v` on the dict model: replaces in place when the key
exists, appends otherwise (CPython insertion-order semantics). -/
def dictSet {V : Type} (d : List (String × V)) (k : String) (v : V) : List (String × V) :=
  if dictContains d k then d.map (fun p => if p.1 = k then (k, v) else p) else d ++ [(k, v)]

/-- Lookup `d.get(k)` on the dict model. -/
def dictGet? {V : Type} (d : List (String × V)) (k : String) : Option V :=
  (d.find? (fun p => p.1 == k)).map (fun p => p.2)

/-- One step of the merge of a matched Sansad record into the accumulator
(lines 713 to 717 of the source): a field whose name is absent is inserted
verbatim, a colliding field name is re-inserted under `"sansad_" + name`. -/
def mergeStep {V : Type} (acc : List (String × V)) (kv : String × V) : List (String × V) :=
  if dictContains acc kv.1 then dictSet acc (("sansad_") ++ kv.1) kv.2
  else dictSet acc kv.1 kv.2

/-- Merge of a whole matched secondary record into a copy of the primary
record, iterating the secondary fields in insertion order. -/
def mergeRecords {V : Type} (primary secondary : List (String × V)) : List (String × V) :=
  secondary.foldl mergeStep primary

/-- Transcription of `find_sansad_by_constituency`: exact-match lookup that
returns the first record of the bucket (the source never builds an empty
bucket, so `head?` agrees with the source's `[0]`). -/
def find_sansad_by_constituency {V : Type} (key : String)
    (lkp : List (String × List (List (String × V)))) : Option (List (String × V)) :=
  match dictGet? lkp key with
  | some bucket => bucket.head?
  | none => none

/-- The `empowered_indian_url` assignment of the main loop (lines 722 to
725): the URL when the key is known, the empty string otherwise. -/
def empowered_step (key : String) (emp : List (String × String))
    (combined : List (String × String)) : List (String × String) :=
  match dictGet? emp key with
  | some mpid => dictSet combined ("empowered_indian_url") (("https://www.empoweredindian.in/mplads/mps/") ++ mpid)
  | none => dictSet combined ("empowered_indian_url") ("")

/-- Transcription of the primary loop of `main` (lines 707 to 726): for each
MyNeta record the composite key is looked up in the Sansad index; on a
match the merged (and URL-enriched) record is appended to `merged` and the
match counter incremented; on a miss the record is only logged, nothing is
appended.  The result is the `merged` list together with `match_count`. -/
def mergeLoopStep (lkp : List (String × List (List (String × String))))
    (emp : List (String × String)) (st : List (List (String × String)) × Nat)
    (m : List (String × String)) : List (List (String × String)) × Nat :=
  let key := (dictGet? m ("myneta_constituency_key")).getD ("")
  match find_sansad_by_constituency key lkp with
  | some srec => (st.1 ++ [empowered_step key emp (mergeRecords m srec)], st.2 + 1)
  | none => st

def mergeLoop (myneta : List (List (String × String)))
    (lkp : List (String × List (List (String × String))))
    (emp : List (String × String)) : List (List (String × String)) × Nat :=
  myneta.foldl (mergeLoopStep lkp emp) ([], 0)

/-- Test that the first character is not whitespace (used to state that a
string has been left-stripped). -/
def noLeadWs : List Nat → Bool
  | [] => true
  | c :: _ => !isSpaceCode c

/-- Test that the last character is not whitespace (used to state that a
string has been right-stripped). -/
def noTrailWs : List Nat → Bool
  | [] => true
  | [c] => !isSpaceCode c
  | _ :: d :: t => noTrailWs (d :: t)

/-- Test that a string is in whitespace normal form: every whitespace
character is a single space (code 32) and no two whitespace characters are
adjacent.  This is the invariant produced by `collapseWs`. -/
def collapsedB : List Nat → Bool
  | [] => true
  | [c] => !isSpaceCode c || c == 32
  | c :: d :: t =>
    ((!isSpaceCode c || c == 32) && (!isSpaceCode c || !isSpaceCode d)) && collapsedB (d :: t)

/-- Occurrence test for the two-character marker `Rs` (codes 82 115),
the case-sensitive precondition of the currency regex. -/
def hasRs : List Nat → Bool
  | [] => false
  | [_] => false
  | c1 :: c2 :: t => (c1 == 82 && c2 == 115) || hasRs (c2 :: t)

/-- Split of a composite key at its first colon (code 58): the part before
the first colon and the part after it. -/
def splitKey (l : List Nat) : List Nat × List Nat :=
  (l.takeWhile (fun d => d != 58), (l.dropWhile (fun d => d != 58)).tail)

/-- Fuel irrelevance for `rpGo`: any sufficient fuel gives the same result. -/
theorem rpGo_congr : ∀ (f₁ f₂ : Nat) (l : List Nat), l.length ≤ f₁ → l.length ≤ f₂ →
    rpGo f₁ l = rpGo f₂ l := by
  intro f₁
  induction f₁ with
  | zero =>
    intro f₂ l h1 _
    have hl : l = [] := List.length_eq_zero.mp (Nat.le_zero.mp h1)
    subst hl
    cases f₂ <;> rfl
  | succ f ih =>
    intro f₂ l h1 h2
    cases l with
    | nil => cases f₂ <;> rfl
    | cons c t =>
      cases f₂ with
      | zero => simp at h2
      | succ g =>
        simp only [List.length_cons, Nat.succ_le_succ_iff] at h1 h2
        simp only [rpGo]
        by_cases hc : c = 40 ∧ 41 ∈ t
        · rw [if_pos hc, if_pos hc]
          have hd := (List.dropWhile_sublist (fun d => d != 41) (l := t)).length_le
          have ht := List.length_tail (t.dropWhile (fun d => d != 41))
          exact ih g _ (by omega) (by omega)
        · rw [if_neg hc, if_neg hc]
          exact congrArg (c :: ·) (ih g t h1 h2)

theorem removeParens_nil : removeParens [] = [] := rfl

theorem removeParens_cons_pos {c : Nat} {t : List Nat} (h : c = 40 ∧ 41 ∈ t) :
    removeParens (c :: t) = removeParens ((t.dropWhile (fun d => d != 41)).tail) := by
  show rpGo (c :: t).length (c :: t) = _
  simp only [List.length_cons, rpGo, if_pos h]
  have hd := (List.dropWhile_sublist (fun d => d != 41) (l := t)).length_le
  have ht := List.length_tail (t.dropWhile (fun d => d != 41))
  exact rpGo_congr _ _ _ (by omega) (le_refl _)

theorem removeParens_cons_neg {c : Nat} {t : List Nat} (h : ¬(c = 40 ∧ 41 ∈ t)) :
    removeParens (c :: t) = c :: removeParens t := by
  show rpGo (c :: t).length (c :: t) = _
  simp only [List.length_cons, rpGo, if_neg h]
  rfl

/-- Fuel irrelevance for `cwGo`. -/
theorem cwGo_congr : ∀ (f₁ f₂ : Nat) (l : List Nat), l.length ≤ f₁ → l.length ≤ f₂ →
    cwGo f₁ l = cwGo f₂ l := by
  intro f₁
  induction f₁ with
  | zero =>
    intro f₂ l h1 _
    have hl : l = [] := List.length_eq_zero.mp (Nat.le_zero.mp h1)
    subst hl
    cases f₂ <;> rfl
  | succ f ih =>
    intro f₂ l h1 h2
    cases l with
    | nil => cases f₂ <;> rfl
    | cons c t =>
      cases f₂ with
      | zero => simp at h2
      | succ g =>
        simp only [List.length_cons, Nat.succ_le_succ_iff] at h1 h2
        simp only [cwGo]
        by_cases hc : isSpaceCode c = true
        · rw [if_pos hc, if_pos hc]
          have hd := (List.dropWhile_sublist isSpaceCode (l := t)).length_le
          exact congrArg (32 :: ·) (ih g _ (by omega) (by omega))
        · rw [if_neg hc, if_neg hc]
          exact congrArg (c :: ·) (ih g t h1 h2)

theorem collapseWs_nil : collapseWs [] = [] := rfl

theorem collapseWs_cons_ws {c : Nat} {t : List Nat} (h : isSpaceCode c = true) :
    collapseWs (c :: t) = 32 :: collapseWs (t.dropWhile isSpaceCode) := by
  show cwGo (c :: t).length (c :: t) = _
  simp only [List.length_cons, cwGo, if_pos h]
  have hd := (List.dropWhile_sublist isSpaceCode (l := t)).length_le
  exact congrArg (32 :: ·) (cwGo_congr _ _ _ (by omega) (le_refl _))

theorem collapseWs_cons_nonws {c : Nat} {t : List Nat} (h : isSpaceCode c = false) :
    collapseWs (c :: t) = c :: collapseWs t := by
  show cwGo (c :: t).length (c :: t) = _
  simp only [List.length_cons, cwGo, if_neg (by simp [h] : ¬ isSpaceCode c = true)]
  rfl

/-- Fuel irrelevance for `stGo`. -/
theorem stGo_congr : ∀ (f₁ f₂ : Nat) (l : List Nat), l.length ≤ f₁ → l.length ≤ f₂ →
    stGo f₁ l = stGo f₂ l := by
  intro f₁
  induction f₁ with
  | zero =>
    intro f₂ l h1 _
    have hl : l = [] := List.length_eq_zero.mp (Nat.le_zero.mp h1)
    subst hl
    cases f₂ <;> rfl
  | succ f ih =>
    intro f₂ l h1 h2
    cases l with
    | nil => cases f₂ <;> rfl
    | cons c t =>
      cases f₂ with
      | zero => simp at h2
      | succ g =>
        simp only [List.length_cons, Nat.succ_le_succ_iff] at h1 h2
        simp only [stGo]
        by_cases hc : c = 126
        · rw [if_pos hc, if_pos hc]
          have hd := (List.dropWhile_sublist (fun d => d != 10) (l := t)).length_le
          exact ih g _ (by omega) (by omega)
        · rw [if_neg hc, if_neg hc]
          exact congrArg (c :: ·) (ih g t h1 h2)

theorem stripTilde_nil : stripTilde [] = [] := rfl

theorem stripTilde_cons_tilde {t : List Nat} :
    stripTilde (126 :: t) = stripTilde (t.dropWhile (fun d => d != 10)) := by
  show stGo (126 :: t).length (126 :: t) = _
  simp only [List.length_cons, stGo, if_pos rfl]
  have hd := (List.dropWhile_sublist (fun d => d != 10) (l := t)).length_le
  exact stGo_congr _ _ _ (by omega) (le_refl _)

theorem stripTilde_cons_other {c : Nat} {t : List Nat} (h : ¬ c = 126) :
    stripTilde (c :: t) = c :: stripTilde t := by
  show stGo (c :: t).length (c :: t) = _
  simp only [List.length_cons, stGo, if_neg h]
  rfl

/-- Uppercasing one character is idempotent. -/
theorem toUpperCode_idem (n : Nat) : toUpperCode (toUpperCode n) = toUpperCode n := by
  by_cases h : 97 ≤ n ∧ n ≤ 122
  · simp only [toUpperCode, if_pos h]
    rw [if_neg (by omega : ¬(97 ≤ n - 32 ∧ n - 32 ≤ 122))]
  · simp only [toUpperCode, if_neg h]

/-- Uppercasing does not change whether a character is whitespace. -/
theorem isSpaceCode_toUpperCode (n : Nat) : isSpaceCode (toUpperCode n) = isSpaceCode n := by
  by_cases h : 97 ≤ n ∧ n ≤ 122
  · rw [toUpperCode, if_pos h]
    simp only [isSpaceCode]
    rw [decide_eq_decide]
    omega
  · rw [toUpperCode, if_neg h]

/-- Lowercasing after uppercasing is the same as lowercasing directly. -/
theorem toLowerCode_toUpperCode (n : Nat) : toLowerCode (toUpperCode n) = toLowerCode n := by
  simp only [toUpperCode, toLowerCode]
  split_ifs <;> omega

/-- Uppercasing reflects equality with any target that is not an uppercase
letter (parentheses, colon, ampersand, space, digits and so on). -/
theorem toUpperCode_eq_iff {m : Nat} (hm : ¬(65 ≤ m ∧ m ≤ 90)) (hm2 : ¬(97 ≤ m ∧ m ≤ 122))
    (n : Nat) : toUpperCode n = m ↔ n = m := by
  simp only [toUpperCode]
  split_ifs with h <;> omega

/-- Whitespace characters are left unchanged by lowercasing. -/
theorem toLowerCode_ws {n : Nat} (h : isSpaceCode n = true) : toLowerCode n = n := by
  simp only [isSpaceCode, decide_eq_true_eq] at h
  simp only [toLowerCode]
  rw [if_neg (by omega)]

/-- Whitespace characters are left unchanged by uppercasing. -/
theorem toUpperCode_ws {n : Nat} (h : isSpaceCode n = true) : toUpperCode n = n := by
  simp only [isSpaceCode, decide_eq_true_eq] at h
  simp only [toUpperCode]
  rw [if_neg (by omega)]

/-- Lowercase letters are not whitespace. -/
theorem isSpaceCode_eq_false_of_lower {n : Nat} (h : 97 ≤ n ∧ n ≤ 122) :
    isSpaceCode n = false := by
  simp only [isSpaceCode, decide_eq_false_iff_not]
  omega

/-- Decimal digits are left unchanged by uppercasing. -/
theorem toUpperCode_digit {n : Nat} (h : isDigitCode n = true) : toUpperCode n = n := by
  simp only [isDigitCode, decide_eq_true_eq] at h
  simp only [toUpperCode]
  rw [if_neg (by omega)]

example : norm_constituency (strCodes ("Bardhaman - Durgapur (SC)")) =
    NormRet.str (strCodes ("BARDHAMAN - DURGAPUR")) := by decide

example : norm_constituency (strCodes ("BURDWAN - DURGAPUR")) =
    NormRet.str (strCodes ("BARDHAMAN-DURGAPUR")) := by decide

example : norm_constituency (strCodes ("123")) = NormRet.str (strCodes ("123")) := by decide

example : norm_constituency (strCodes ("()")) = NormRet.str [] := by decide

example : norm_constituency [] = NormRet.pair [] [] := by decide

example : norm_constituency (strCodes ("A:B")) = NormRet.str (strCodes ("A:B")) := by decide

example : norm_constituency (strCodes ("Foo: Bye Election 2024")) =
    norm_constituency (strCodes ("Foo")) := by decide

example : parse_indian_money (strCodes ("Rs 65,67,12,498~ 65 Crore+")) = 656712498 := by decide

example : parse_indian_money (strCodes ("rs 100")) = 0 := by decide

example : parse_indian_money (strCodes ("₹ 1,00,000")) = 0 := by decide

example : parse_indian_money (strCodes ("Rs 12.34")) = 12 := by decide

example : parse_indian_money (strCodes ("Nil")) = 0 := by decide

example : mergeRecords [(("x"), (1 : Int))] [(("x"), 2), (("y"), 3)] =
    [(("x"), 1), (("sansad_x"), 2), (("y"), 3)] := by decide

example : mergeLoop [[(("myneta_constituency_key"), ("FOO:BAR"))]] [] [] = ([], 0) := by decide

/-- Uppercasing reflects and preserves being the space character. -/
theorem beq32_toUpperCode (c : Nat) : (toUpperCode c == 32) = (c == 32) := by
  by_cases h : c = 32
  · subst h; decide
  · have h2 : toUpperCode c ≠ 32 := fun hEq => h ((toUpperCode_eq_iff (by omega) (by omega) c).mp hEq)
    simp [h, h2]

/-- Uppercasing a whole string is idempotent. -/
theorem pyUpper_idem (l : List Nat) : pyUpper (pyUpper l) = pyUpper l := by
  simp only [pyUpper, List.map_map]
  exact List.map_congr_left (fun a _ => toUpperCode_idem a)

/-- Membership of a non-letter character in an uppercased string reflects
membership in the original string. -/
theorem mem_pyUpper_iff {m : Nat} (hm : ¬(65 ≤ m ∧ m ≤ 90)) (hm2 : ¬(97 ≤ m ∧ m ≤ 122))
    (l : List Nat) : m ∈ pyUpper l ↔ m ∈ l := by
  simp only [pyUpper, List.mem_map]
  constructor
  · rintro ⟨a, ha, hEq⟩
    rwa [(toUpperCode_eq_iff hm hm2 a).mp hEq] at ha
  · intro h
    exact ⟨m, h, (toUpperCode_eq_iff hm hm2 m).mpr rfl⟩

/-- Characters of `replaceAmp l` come from `l` or from the inserted `and`. -/
theorem mem_replaceAmp {a : Nat} : ∀ {l : List Nat}, a ∈ replaceAmp l →
    a = 97 ∨ a = 110 ∨ a = 100 ∨ a ∈ l := by
  intro l
  induction l with
  | nil => intro h; simp [replaceAmp] at h
  | cons c t ih =>
    intro h
    by_cases hc : c = 38
    · rw [replaceAmp, if_pos hc] at h
      simp only [List.mem_cons] at h
      rcases h with h | h | h | h
      · exact Or.inl h
      · exact Or.inr (Or.inl h)
      · exact Or.inr (Or.inr (Or.inl h))
      · rcases ih h with h2 | h2 | h2 | h2
        · exact Or.inl h2
        · exact Or.inr (Or.inl h2)
        · exact Or.inr (Or.inr (Or.inl h2))
        · exact Or.inr (Or.inr (Or.inr (List.mem_cons_of_mem _ h2)))
    · rw [replaceAmp, if_neg hc] at h
      simp only [List.mem_cons] at h
      rcases h with h | h
      · exact Or.inr (Or.inr (Or.inr (h ▸ List.mem_cons_self _ _)))
      · rcases ih h with h2 | h2 | h2 | h2
        · exact Or.inl h2
        · exact Or.inr (Or.inl h2)
        · exact Or.inr (Or.inr (Or.inl h2))
        · exact Or.inr (Or.inr (Or.inr (List.mem_cons_of_mem _ h2)))

/-- The output of `replaceAmp` never contains an ampersand. -/
theorem amp_not_mem_replaceAmp : ∀ (l : List Nat), (38 : Nat) ∉ replaceAmp l := by
  intro l
  induction l with
  | nil => simp [replaceAmp]
  | cons c t ih =>
    by_cases hc : c = 38
    · rw [replaceAmp, if_pos hc]
      simp only [List.mem_cons]
      rintro (h | h | h | h) <;> first | omega | exact ih h
    · rw [replaceAmp, if_neg hc]
      simp only [List.mem_cons]
      rintro (h | h)
      · exact hc h.symm
      · exact ih h

/-- The ampersand replacement is the identity on ampersand-free strings. -/
theorem replaceAmp_eq_self : ∀ {l : List Nat}, (38 : Nat) ∉ l → replaceAmp l = l := by
  intro l
  induction l with
  | nil => intro _; rfl
  | cons c t ih =>
    intro h
    simp only [List.mem_cons, not_or] at h
    rw [replaceAmp, if_neg (fun hc => h.1 hc.symm), ih h.2]

/-- Characters of the whitespace collapse come from the input or are the
inserted space. -/
theorem mem_cwGo {a : Nat} : ∀ (f : Nat) (l : List Nat), a ∈ cwGo f l → a = 32 ∨ a ∈ l := by
  intro f
  induction f with
  | zero => intro l h; exact Or.inr h
  | succ f ih =>
    intro l h
    cases l with
    | nil => simp [cwGo] at h
    | cons c t =>
      rw [cwGo] at h
      by_cases hc : isSpaceCode c = true
      · rw [if_pos hc] at h
        simp only [List.mem_cons] at h
        rcases h with h | h
        · exact Or.inl h
        · rcases ih _ h with h2 | h2
          · exact Or.inl h2
          · exact Or.inr (List.mem_cons_of_mem _ ((List.dropWhile_sublist _).subset h2))
      · rw [if_neg hc] at h
        simp only [List.mem_cons] at h
        rcases h with h | h
        · exact Or.inr (h ▸ List.mem_cons_self _ _)
        · rcases ih _ h with h2 | h2
          · exact Or.inl h2
          · exact Or.inr (List.mem_cons_of_mem _ h2)

theorem mem_collapseWs {a : Nat} {l : List Nat} (h : a ∈ collapseWs l) : a = 32 ∨ a ∈ l :=
  mem_cwGo _ _ h

/-- The trailing-whitespace drop yields a sublist. -/
theorem dtw_sublist : ∀ (l : List Nat), List.Sublist (dropTrailingWs l) l := by
  intro l
  induction l with
  | nil => simp [dropTrailingWs]
  | cons c t ih =>
    cases h : dropTrailingWs t with
    | nil =>
      by_cases hc : isSpaceCode c = true
      · simp only [dropTrailingWs, h, if_pos hc]
        exact List.nil_sublist _
      · simp only [dropTrailingWs, h, if_neg hc]
        exact List.singleton_sublist.mpr (List.mem_cons_self _ _)
    | cons d u =>
      simp only [dropTrailingWs, h]
      rw [h] at ih
      exact ih.cons₂ c

/-- A nonempty trailing-whitespace drop keeps the head of the string. -/
theorem dtw_head : ∀ {l : List Nat} {d : Nat} {u : List Nat},
    dropTrailingWs l = d :: u → ∃ t2, l = d :: t2 := by
  intro l
  cases l with
  | nil => intro d u h; simp [dropTrailingWs] at h
  | cons c t =>
    intro d u h
    cases h2 : dropTrailingWs t with
    | nil =>
      simp only [dropTrailingWs, h2] at h
      by_cases hc : isSpaceCode c = true
      · rw [if_pos hc] at h; simp at h
      · rw [if_neg hc] at h
        simp only [List.cons.injEq] at h
        exact ⟨t, by rw [h.1]⟩
    | cons d2 u2 =>
      simp only [dropTrailingWs, h2, List.cons.injEq] at h
      exact ⟨t, by rw [h.1]⟩

/-- A string is its trailing-whitespace drop followed by some tail. -/
theorem dtw_decomp : ∀ (l : List Nat), ∃ v, l = dropTrailingWs l ++ v := by
  intro l
  induction l with
  | nil => exact ⟨[], rfl⟩
  | cons c t ih =>
    cases h : dropTrailingWs t with
    | nil =>
      by_cases hc : isSpaceCode c = true
      · exact ⟨c :: t, by simp [dropTrailingWs, h, if_pos hc]⟩
      · exact ⟨t, by simp [dropTrailingWs, h, if_neg hc]⟩
    | cons d u =>
      obtain ⟨v, hv⟩ := ih
      rw [h] at hv
      refine ⟨v, ?_⟩
      simp only [dropTrailingWs, h, List.cons_append]
      rw [← List.cons_append, ← hv]

/-- The canonicalizer's strip is a sublist of its argument. -/
theorem pyStrip_sublist (l : List Nat) : List.Sublist (pyStrip l) l :=
  (dtw_sublist _).trans (List.dropWhile_sublist _)

/-- Left-stripping produces a string with no leading whitespace. -/
theorem noLeadWs_dropWhile (l : List Nat) : noLeadWs (l.dropWhile isSpaceCode) = true := by
  induction l with
  | nil => rfl
  | cons c t ih =>
    rw [List.dropWhile_cons]
    by_cases hc : isSpaceCode c = true
    · rw [if_pos hc]; exact ih
    · rw [if_neg hc]
      simp [noLeadWs, hc]

/-- Left-stripping is the identity when there is no leading whitespace. -/
theorem dropWhile_eq_self_of_noLead {l : List Nat} (h : noLeadWs l = true) :
    l.dropWhile isSpaceCode = l := by
  cases l with
  | nil => rfl
  | cons c t =>
    simp only [noLeadWs, Bool.not_eq_true'] at h
    rw [List.dropWhile_cons, if_neg (by simp [h])]

/-- Right-stripping produces a string with no trailing whitespace. -/
theorem noTrailWs_dtw : ∀ (l : List Nat), noTrailWs (dropTrailingWs l) = true := by
  intro l
  induction l with
  | nil => rfl
  | cons c t ih =>
    cases h : dropTrailingWs t with
    | nil =>
      by_cases hc : isSpaceCode c = true
      · simp [dropTrailingWs, h, if_pos hc, noTrailWs]
      · simp [dropTrailingWs, h, if_neg hc, noTrailWs, hc]
    | cons d u =>
      simp only [dropTrailingWs, h]
      rw [h] at ih
      exact ih

/-- Right-stripping is the identity when there is no trailing whitespace. -/
theorem dtw_eq_self : ∀ {l : List Nat}, noTrailWs l = true → dropTrailingWs l = l := by
  intro l
  induction l with
  | nil => intro _; rfl
  | cons c t ih =>
    intro h
    cases t with
    | nil =>
      simp only [noTrailWs, Bool.not_eq_true'] at h
      simp [dropTrailingWs, h]
    | cons d t2 =>
      have hd : dropTrailingWs (d :: t2) = d :: t2 := ih (by simpa [noTrailWs] using h)
      rw [dropTrailingWs, hd]

/-- Right-stripping keeps the absence of leading whitespace. -/
theorem noLeadWs_dtw {l : List Nat} (h : noLeadWs l = true) :
    noLeadWs (dropTrailingWs l) = true := by
  cases l with
  | nil => rfl
  | cons c t =>
    cases h2 : dropTrailingWs t with
    | nil =>
      simp only [noLeadWs, Bool.not_eq_true'] at h
      simp [dropTrailingWs, h2, h, noLeadWs]
    | cons d u =>
      simp only [dropTrailingWs, h2]
      simpa [noLeadWs] using h

/-- Uppercasing keeps the absence of leading whitespace. -/
theorem noLeadWs_pyUpper (l : List Nat) : noLeadWs (pyUpper l) = noLeadWs l := by
  cases l with
  | nil => rfl
  | cons c t => simp [pyUpper, noLeadWs, isSpaceCode_toUpperCode]

/-- Uppercasing keeps the absence of trailing whitespace. -/
theorem noTrailWs_pyUpper : ∀ (l : List Nat), noTrailWs (pyUpper l) = noTrailWs l := by
  intro l
  induction l with
  | nil => rfl
  | cons c t ih =>
    cases t with
    | nil => simp [pyUpper, noTrailWs, isSpaceCode_toUpperCode]
    | cons d t2 =>
      show noTrailWs (toUpperCode c :: toUpperCode d :: List.map toUpperCode t2) = _
      rw [noTrailWs]
      exact ih

theorem collapsedB_one_iff (c : Nat) : collapsedB [c] = true ↔
    (isSpaceCode c = false ∨ c = 32) := by
  rw [collapsedB]
  simp [Bool.or_eq_true, Bool.not_eq_true', beq_iff_eq]

theorem collapsedB_two_iff (c d : Nat) (u : List Nat) : collapsedB (c :: d :: u) = true ↔
    ((isSpaceCode c = false ∨ c = 32) ∧ (isSpaceCode c = false ∨ isSpaceCode d = false) ∧
      collapsedB (d :: u) = true) := by
  rw [collapsedB]
  simp [Bool.and_eq_true, Bool.or_eq_true, Bool.not_eq_true', beq_iff_eq, and_assoc]

theorem collapsedB_tail {c : Nat} {t : List Nat} (h : collapsedB (c :: t) = true) :
    collapsedB t = true := by
  cases t with
  | nil => rfl
  | cons d u => exact ((collapsedB_two_iff c d u).mp h).2.2

theorem collapsedB_head {c : Nat} {t : List Nat} (h : collapsedB (c :: t) = true) :
    isSpaceCode c = false ∨ c = 32 := by
  cases t with
  | nil => exact (collapsedB_one_iff c).mp h
  | cons d u => exact ((collapsedB_two_iff c d u).mp h).1

/-- Whitespace collapse keeps the absence of leading whitespace. -/
theorem cwGo_noLead : ∀ (f : Nat) {u : List Nat}, noLeadWs u = true →
    noLeadWs (cwGo f u) = true := by
  intro f
  cases f with
  | zero => intro u h; exact h
  | succ f =>
    intro u h
    cases u with
    | nil => rfl
    | cons c t =>
      simp only [noLeadWs, Bool.not_eq_true'] at h
      rw [cwGo, if_neg (by simp [h])]
      simp [noLeadWs, h]

/-- The output of the whitespace collapse is in whitespace normal form. -/
theorem collapsedB_cwGo : ∀ (f : Nat) (l : List Nat), l.length ≤ f →
    collapsedB (cwGo f l) = true := by
  intro f
  induction f with
  | zero =>
    intro l h
    have hl : l = [] := List.length_eq_zero.mp (Nat.le_zero.mp h)
    subst hl; rfl
  | succ f ih =>
    intro l h
    cases l with
    | nil => rfl
    | cons c t =>
      simp only [List.length_cons, Nat.succ_le_succ_iff] at h
      rw [cwGo]
      by_cases hc : isSpaceCode c = true
      · rw [if_pos hc]
        have hlen : (t.dropWhile isSpaceCode).length ≤ f :=
          le_trans (List.dropWhile_sublist _).length_le h
        have hcb := ih _ hlen
        have hnl := cwGo_noLead f (noLeadWs_dropWhile t)
        cases hX : cwGo f (t.dropWhile isSpaceCode) with
        | nil => decide
        | cons d u =>
          rw [hX] at hcb hnl
          simp only [noLeadWs, Bool.not_eq_true'] at hnl
          exact (collapsedB_two_iff 32 d u).mpr ⟨Or.inr rfl, Or.inr hnl, hcb⟩
      · rw [if_neg hc]
        have hcb := ih t h
        simp only [Bool.not_eq_true] at hc
        cases hX : cwGo f t with
        | nil => exact (collapsedB_one_iff c).mpr (Or.inl hc)
        | cons d u =>
          rw [hX] at hcb
          exact (collapsedB_two_iff c d u).mpr ⟨Or.inl hc, Or.inl hc, hcb⟩

theorem collapsedB_collapseWs (l : List Nat) : collapsedB (collapseWs l) = true :=
  collapsedB_cwGo _ _ (le_refl _)

/-- The whitespace collapse is the identity on whitespace normal forms. -/
theorem collapseWs_eq_self : ∀ {l : List Nat}, collapsedB l = true → collapseWs l = l := by
  intro l
  induction l with
  | nil => intro _; rfl
  | cons c t ih =>
    intro h
    by_cases hw : isSpaceCode c = true
    · have hc32 : c = 32 := by
        rcases collapsedB_head h with h1 | h1
        · rw [hw] at h1; cases h1
        · exact h1
      rw [collapseWs_cons_ws hw]
      cases t with
      | nil =>
        rw [List.dropWhile_nil, collapseWs_nil, hc32]
      | cons d t2 =>
        have hd : isSpaceCode d = false := by
          rcases ((collapsedB_two_iff c d t2).mp h).2.1 with h2 | h2
          · rw [hw] at h2; cases h2
          · exact h2
        rw [List.dropWhile_cons, if_neg (by simp [hd]), ih (collapsedB_tail h), hc32]
    · rw [collapseWs_cons_nonws (by simpa using hw), ih (collapsedB_tail h)]

/-- Left-stripping keeps whitespace normal form. -/
theorem collapsedB_dropWhile : ∀ {l : List Nat}, collapsedB l = true →
    collapsedB (l.dropWhile isSpaceCode) = true := by
  intro l
  induction l with
  | nil => intro _; rfl
  | cons c t ih =>
    intro h
    rw [List.dropWhile_cons]
    by_cases hc : isSpaceCode c = true
    · rw [if_pos hc]; exact ih (collapsedB_tail h)
    · rw [if_neg hc]; exact h

/-- Right-stripping keeps whitespace normal form. -/
theorem collapsedB_dtw : ∀ {l : List Nat}, collapsedB l = true →
    collapsedB (dropTrailingWs l) = true := by
  intro l
  induction l with
  | nil => intro _; rfl
  | cons c t ih =>
    intro h
    cases h2 : dropTrailingWs t with
    | nil =>
      by_cases hc : isSpaceCode c = true
      · rw [dropTrailingWs, h2, if_pos hc]; rfl
      · rw [dropTrailingWs, h2, if_neg hc]
        exact (collapsedB_one_iff c).mpr (Or.inl (by simpa using hc))
    | cons d u =>
      obtain ⟨t2, ht⟩ := dtw_head h2
      have hcb := ih (collapsedB_tail h)
      rw [h2] at hcb
      rw [dropTrailingWs, h2]
      refine (collapsedB_two_iff c d u).mpr ⟨collapsedB_head h, ?_, hcb⟩
      subst ht
      exact ((collapsedB_two_iff c d t2).mp h).2.1

/-- Uppercasing keeps whitespace normal form. -/
theorem collapsedB_pyUpper : ∀ (l : List Nat), collapsedB (pyUpper l) = collapsedB l := by
  intro l
  induction l with
  | nil => rfl
  | cons c t ih =>
    cases t with
    | nil =>
      show collapsedB [toUpperCode c] = collapsedB [c]
      rw [collapsedB, collapsedB, isSpaceCode_toUpperCode, beq32_toUpperCode]
    | cons d t2 =>
      show collapsedB (toUpperCode c :: toUpperCode d :: List.map toUpperCode t2) = _
      rw [collapsedB, collapsedB]
      rw [show collapsedB (toUpperCode d :: List.map toUpperCode t2) = collapsedB (d :: t2) from ih]
      rw [isSpaceCode_toUpperCode, isSpaceCode_toUpperCode, beq32_toUpperCode]

/-- Python strip is the identity on strings with stripped ends. -/
theorem pyStrip_eq_self {l : List Nat} (h1 : noLeadWs l = true) (h2 : noTrailWs l = true) :
    pyStrip l = l := by
  rw [pyStrip, dropWhile_eq_self_of_noLead h1, dtw_eq_self h2]

theorem noLeadWs_pyStrip (l : List Nat) : noLeadWs (pyStrip l) = true :=
  noLeadWs_dtw (noLeadWs_dropWhile l)

theorem noTrailWs_pyStrip (l : List Nat) : noTrailWs (pyStrip l) = true :=
  noTrailWs_dtw _

theorem collapsedB_pyStrip {l : List Nat} (h : collapsedB l = true) :
    collapsedB (pyStrip l) = true :=
  collapsedB_dtw (collapsedB_dropWhile h)

/-- A string containing the bye-election pattern contains a colon. -/
theorem containsBye_mem : ∀ {l : List Nat}, containsBye l = true → (58 : Nat) ∈ l := by
  intro l
  induction l with
  | nil => intro h; cases h
  | cons c t ih =>
    intro h
    rw [containsBye, Bool.or_eq_true] at h
    rcases h with h | h
    · rw [byeHere, Bool.and_eq_true, beq_iff_eq] at h
      exact h.1 ▸ List.mem_cons_self _ _
    · exact List.mem_cons_of_mem _ (ih h)

/-- A head match extends along an appended tail. -/
theorem mls_append {ext : List Nat} : ∀ {pat u rem : List Nat},
    matchLowerSeq pat u = some rem → matchLowerSeq pat (u ++ ext) = some (rem ++ ext) := by
  intro pat
  induction pat with
  | nil =>
    intro u rem h
    rw [matchLowerSeq] at h
    cases h
    rw [matchLowerSeq]
  | cons p ps ih =>
    intro u rem h
    cases u with
    | nil => simp [matchLowerSeq] at h
    | cons c cs =>
      rw [matchLowerSeq] at h
      rw [List.cons_append, matchLowerSeq]
      by_cases hc : toLowerCode c = p
      · rw [if_pos hc] at h ⊢
        exact ih h
      · rw [if_neg hc] at h
        cases h

/-- Unfolded form of a successful bye tail match. -/
theorem byeTail_eq_true_iff (r : List Nat) : byeTail r = true ↔
    ∃ r2, matchLowerSeq [98, 121, 101] (r.dropWhile isSpaceCode) = some r2 ∧
      (matchLowerSeq [101, 108, 101, 99, 116, 105, 111, 110] (r2.dropWhile isSpaceCode)).isSome = true := by
  rw [byeTail]
  cases h1 : matchLowerSeq [98, 121, 101] (r.dropWhile isSpaceCode) with
  | none => simp
  | some r2 => simp

/-- The bye tail match extends along an appended tail. -/
theorem byeTail_append {r ext : List Nat} (h : byeTail r = true) : byeTail (r ++ ext) = true := by
  obtain ⟨r2, h1, h2⟩ := (byeTail_eq_true_iff r).mp h
  obtain ⟨r3, h3⟩ := Option.isSome_iff_exists.mp h2
  have hie : (r.dropWhile isSpaceCode).isEmpty = false := by
    cases hD : r.dropWhile isSpaceCode with
    | nil => rw [hD] at h1; simp [matchLowerSeq] at h1
    | cons x xs => rfl
  have hie2 : (r2.dropWhile isSpaceCode).isEmpty = false := by
    cases hD : r2.dropWhile isSpaceCode with
    | nil => rw [hD] at h3; simp [matchLowerSeq] at h3
    | cons x xs => rfl
  refine (byeTail_eq_true_iff (r ++ ext)).mpr ⟨r2 ++ ext, ?_, ?_⟩
  · rw [List.dropWhile_append, if_neg (by simp [hie])]
    exact mls_append h1
  · rw [List.dropWhile_append, if_neg (by simp [hie2]), mls_append h3]
    rfl

/-- The anchored bye match extends along an appended tail. -/
theorem byeHere_append {t ext : List Nat} (h : byeHere t = true) : byeHere (t ++ ext) = true := by
  cases t with
  | nil => cases h
  | cons c r =>
    rw [byeHere, Bool.and_eq_true] at h
    rw [List.cons_append, byeHere, Bool.and_eq_true]
    exact ⟨h.1, byeTail_append h.2⟩

/-- The bye search extends along an appended tail. -/
theorem containsBye_append_right {l ext : List Nat} (h : containsBye l = true) :
    containsBye (l ++ ext) = true := by
  induction l with
  | nil => cases h
  | cons c t ih =>
    rw [containsBye, Bool.or_eq_true] at h
    rw [List.cons_append, containsBye, Bool.or_eq_true]
    rcases h with h | h
    · exact Or.inl (by rw [← List.cons_append]; exact byeHere_append h)
    · exact Or.inr (ih h)

/-- The bye search extends along a prepended head. -/
theorem containsBye_append_left {w l : List Nat} (h : containsBye l = true) :
    containsBye (w ++ l) = true := by
  induction w with
  | nil => exact h
  | cons a w' ih =>
    rw [List.cons_append, containsBye, Bool.or_eq_true]
    exact Or.inr ih

/-- A whitespace head does not affect the bye search. -/
theorem containsBye_cons_ws {c : Nat} {t : List Nat} (hc : isSpaceCode c = true) :
    containsBye (c :: t) = containsBye t := by
  rw [containsBye, byeHere]
  have h58 : (c == 58) = false := by
    by_cases h : c = 58
    · subst h; exact absurd hc (by decide)
    · simp [h]
  rw [h58]
  simp

/-- Left-stripping does not affect the bye search. -/
theorem containsBye_dropWhile : ∀ (l : List Nat),
    containsBye (l.dropWhile isSpaceCode) = containsBye l := by
  intro l
  induction l with
  | nil => rfl
  | cons c t ih =>
    rw [List.dropWhile_cons]
    by_cases hc : isSpaceCode c = true
    · rw [if_pos hc, ih, containsBye_cons_ws hc]
    · rw [if_neg hc]

/-- The bye search reflects from the Python strip to the original string. -/
theorem containsBye_of_pyStrip {l : List Nat} (h : containsBye (pyStrip l) = true) :
    containsBye l = true := by
  obtain ⟨v, hv⟩ := dtw_decomp (l.dropWhile isSpaceCode)
  have h2 : containsBye (l.dropWhile isSpaceCode) = true := by
    rw [hv]
    exact containsBye_append_right h
  rw [containsBye_dropWhile] at h2
  exact h2

/-- Uppercasing reflects and preserves equality of `==` tests against any
non-letter target. -/
theorem beq_toUpperCode {m : Nat} (hm : ¬(65 ≤ m ∧ m ≤ 90)) (hm2 : ¬(97 ≤ m ∧ m ≤ 122))
    (c : Nat) : (toUpperCode c == m) = (c == m) := by
  by_cases h : c = m
  · subst h
    rw [show toUpperCode c = c from by rw [toUpperCode, if_neg (by omega)]]
  · have h2 : toUpperCode c ≠ m := fun hEq => h ((toUpperCode_eq_iff hm hm2 c).mp hEq)
    simp [h, h2]

/-- Left-stripping commutes with uppercasing. -/
theorem dw_pyUpper (u : List Nat) :
    (pyUpper u).dropWhile isSpaceCode = pyUpper (u.dropWhile isSpaceCode) := by
  induction u with
  | nil => rfl
  | cons c t ih =>
    show (toUpperCode c :: pyUpper t).dropWhile isSpaceCode = _
    rw [List.dropWhile_cons, List.dropWhile_cons, isSpaceCode_toUpperCode]
    by_cases hc : isSpaceCode c = true
    · rw [if_pos hc, if_pos hc]; exact ih
    · rw [if_neg hc, if_neg hc]; rfl

/-- The case-insensitive head match is blind to uppercasing. -/
theorem mls_pyUpper : ∀ (pat u : List Nat),
    matchLowerSeq pat (pyUpper u) = Option.map pyUpper (matchLowerSeq pat u) := by
  intro pat
  induction pat with
  | nil => intro u; rfl
  | cons p ps ih =>
    intro u
    cases u with
    | nil => rfl
    | cons c cs =>
      show matchLowerSeq (p :: ps) (toUpperCode c :: pyUpper cs) = _
      rw [matchLowerSeq, matchLowerSeq, toLowerCode_toUpperCode]
      by_cases hc : toLowerCode c = p
      · rw [if_pos hc, if_pos hc]; exact ih cs
      · rw [if_neg hc, if_neg hc]; rfl

/-- The bye tail match is blind to uppercasing. -/
theorem byeTail_pyUpper (r : List Nat) : byeTail (pyUpper r) = byeTail r := by
  rw [byeTail, byeTail, dw_pyUpper, mls_pyUpper]
  cases hX : matchLowerSeq [98, 121, 101] (r.dropWhile isSpaceCode) with
  | none => rfl
  | some r2 =>
    show (matchLowerSeq [101, 108, 101, 99, 116, 105, 111, 110]
      ((pyUpper r2).dropWhile isSpaceCode)).isSome =
      (matchLowerSeq [101, 108, 101, 99, 116, 105, 111, 110] (r2.dropWhile isSpaceCode)).isSome
    rw [dw_pyUpper, mls_pyUpper]
    cases matchLowerSeq [101, 108, 101, 99, 116, 105, 111, 110] (r2.dropWhile isSpaceCode) <;> rfl

/-- The bye search is blind to uppercasing. -/
theorem containsBye_pyUpper : ∀ (l : List Nat), containsBye (pyUpper l) = containsBye l := by
  intro l
  induction l with
  | nil => rfl
  | cons c t ih =>
    show containsBye (toUpperCode c :: pyUpper t) = _
    rw [containsBye, containsBye, byeHere, byeHere, byeTail_pyUpper, ih,
      beq_toUpperCode (by omega) (by omega) c]

/-- Left-stripping commutes with the ampersand replacement. -/
theorem dw_replaceAmp : ∀ (u : List Nat),
    (replaceAmp u).dropWhile isSpaceCode = replaceAmp (u.dropWhile isSpaceCode) := by
  intro u
  induction u with
  | nil => rfl
  | cons c t ih =>
    by_cases hc : c = 38
    · subst hc
      rw [replaceAmp, if_pos rfl]
      rw [List.dropWhile_cons, if_neg (by decide)]
      rw [List.dropWhile_cons, if_neg (by decide)]
      rw [replaceAmp, if_pos rfl]
    · rw [replaceAmp, if_neg hc, List.dropWhile_cons, List.dropWhile_cons]
      by_cases hw : isSpaceCode c = true
      · rw [if_pos hw, if_pos hw]; exact ih
      · rw [if_neg hw, if_neg hw, replaceAmp, if_neg hc]

/-- The head match ignores the ampersand replacement when the pattern can
match neither an ampersand nor the letter `a` (true of `bye` and
`election`). -/
theorem mls_replaceAmp : ∀ {pat : List Nat}, (97 : Nat) ∉ pat → (38 : Nat) ∉ pat →
    ∀ (u : List Nat),
    matchLowerSeq pat (replaceAmp u) = Option.map replaceAmp (matchLowerSeq pat u) := by
  intro pat
  induction pat with
  | nil => intro _ _ u; rfl
  | cons p ps ih =>
    intro h97 h38 u
    simp only [List.mem_cons, not_or] at h97 h38
    cases u with
    | nil => rfl
    | cons c t =>
      by_cases hc : c = 38
      · subst hc
        rw [replaceAmp, if_pos rfl, matchLowerSeq, matchLowerSeq]
        have hc1 : ¬ toLowerCode 97 = p := by
          rw [show toLowerCode 97 = 97 from by decide]
          exact fun hEq => h97.1 hEq
        have hc2 : ¬ toLowerCode 38 = p := by
          rw [show toLowerCode 38 = 38 from by decide]
          exact fun hEq => h38.1 hEq
        rw [if_neg hc1, if_neg hc2]; rfl
      · rw [replaceAmp, if_neg hc, matchLowerSeq, matchLowerSeq]
        by_cases hm : toLowerCode c = p
        · rw [if_pos hm, if_pos hm]; exact ih h97.2 h38.2 t
        · rw [if_neg hm, if_neg hm]; rfl

/-- The bye tail match is blind to the ampersand replacement. -/
theorem byeTail_replaceAmp (r : List Nat) : byeTail (replaceAmp r) = byeTail r := by
  rw [byeTail, byeTail, dw_replaceAmp, mls_replaceAmp (by decide) (by decide)]
  cases hX : matchLowerSeq [98, 121, 101] (r.dropWhile isSpaceCode) with
  | none => rfl
  | some r2 =>
    show (matchLowerSeq [101, 108, 101, 99, 116, 105, 111, 110]
      ((replaceAmp r2).dropWhile isSpaceCode)).isSome =
      (matchLowerSeq [101, 108, 101, 99, 116, 105, 111, 110] (r2.dropWhile isSpaceCode)).isSome
    rw [dw_replaceAmp, mls_replaceAmp (by decide) (by decide)]
    cases matchLowerSeq [101, 108, 101, 99, 116, 105, 111, 110] (r2.dropWhile isSpaceCode) <;> rfl

/-- The bye search is blind to the ampersand replacement. -/
theorem containsBye_replaceAmp : ∀ (l : List Nat),
    containsBye (replaceAmp l) = containsBye l := by
  intro l
  induction l with
  | nil => rfl
  | cons c t ih =>
    by_cases hc : c = 38
    · subst hc
      rw [replaceAmp, if_pos rfl]
      simp [containsBye, byeHere, ih]
    · rw [replaceAmp, if_neg hc]
      rw [containsBye, containsBye, byeHere, byeHere, byeTail_replaceAmp, ih]

/-- Left-stripping commutes with the whitespace collapse. -/
theorem dw_cw : ∀ (u : List Nat),
    (collapseWs u).dropWhile isSpaceCode = collapseWs (u.dropWhile isSpaceCode) := by
  intro u
  cases u with
  | nil => rfl
  | cons c t =>
    by_cases hw : isSpaceCode c = true
    · rw [collapseWs_cons_ws hw, List.dropWhile_cons, if_pos (by decide),
        List.dropWhile_cons, if_pos hw]
      exact dropWhile_eq_self_of_noLead (cwGo_noLead _ (noLeadWs_dropWhile t))
    · rw [collapseWs_cons_nonws (by simpa using hw), List.dropWhile_cons, if_neg hw,
        List.dropWhile_cons, if_neg hw, collapseWs_cons_nonws (by simpa using hw)]

/-- The head match ignores the whitespace collapse when the pattern is all
lowercase letters (true of `bye` and `election`). -/
theorem mls_cw : ∀ (u : List Nat) {pat : List Nat}, (∀ p ∈ pat, 97 ≤ p ∧ p ≤ 122) →
    matchLowerSeq pat (collapseWs u) = Option.map collapseWs (matchLowerSeq pat u) := by
  intro u
  induction u with
  | nil =>
    intro pat hp
    cases pat with
    | nil => rw [collapseWs_nil]; rfl
    | cons p ps => rw [collapseWs_nil]; rfl
  | cons c t ih =>
    intro pat hp
    cases pat with
    | nil => rfl
    | cons p ps =>
      have hp1 := hp p (List.mem_cons_self _ _)
      by_cases hw : isSpaceCode c = true
      · rw [collapseWs_cons_ws hw, matchLowerSeq, matchLowerSeq]
        have hc1 : ¬ toLowerCode 32 = p := by
          rw [show toLowerCode 32 = 32 from by decide]
          omega
        have hc2 : ¬ toLowerCode c = p := by
          intro hEq
          rw [toLowerCode_ws hw] at hEq
          have hf := isSpaceCode_eq_false_of_lower hp1
          rw [hEq] at hw
          rw [hf] at hw
          cases hw
        rw [if_neg hc1, if_neg hc2]; rfl
      · rw [collapseWs_cons_nonws (by simpa using hw), matchLowerSeq, matchLowerSeq]
        by_cases hm : toLowerCode c = p
        · rw [if_pos hm, if_pos hm]
          exact ih (fun q hq => hp q (List.mem_cons_of_mem _ hq))
        · rw [if_neg hm, if_neg hm]; rfl

/-- The bye tail match is blind to the whitespace collapse. -/
theorem byeTail_cw (r : List Nat) : byeTail (collapseWs r) = byeTail r := by
  rw [byeTail, byeTail, dw_cw, mls_cw _ (by decide)]
  cases hX : matchLowerSeq [98, 121, 101] (r.dropWhile isSpaceCode) with
  | none => rfl
  | some r2 =>
    show (matchLowerSeq [101, 108, 101, 99, 116, 105, 111, 110]
      ((collapseWs r2).dropWhile isSpaceCode)).isSome =
      (matchLowerSeq [101, 108, 101, 99, 116, 105, 111, 110] (r2.dropWhile isSpaceCode)).isSome
    rw [dw_cw, mls_cw _ (by decide)]
    cases matchLowerSeq [101, 108, 101, 99, 116, 105, 111, 110] (r2.dropWhile isSpaceCode) <;> rfl

/-- Length-bounded form: the bye search is blind to the whitespace collapse. -/
theorem cb_cw_len : ∀ (n : Nat) (l : List Nat), l.length ≤ n →
    containsBye (collapseWs l) = containsBye l := by
  intro n
  induction n with
  | zero =>
    intro l h
    have hl : l = [] := List.length_eq_zero.mp (Nat.le_zero.mp h)
    subst hl; rfl
  | succ n ih =>
    intro l h
    cases l with
    | nil => rfl
    | cons c t =>
      simp only [List.length_cons, Nat.succ_le_succ_iff] at h
      by_cases hw : isSpaceCode c = true
      · rw [collapseWs_cons_ws hw, containsBye_cons_ws (by decide), containsBye_cons_ws hw]
        rw [ih _ (le_trans (List.dropWhile_sublist _).length_le h), containsBye_dropWhile]
      · rw [collapseWs_cons_nonws (by simpa using hw)]
        rw [containsBye, containsBye, byeHere, byeHere, byeTail_cw, ih t h]

/-- The bye search is blind to the whitespace collapse. -/
theorem containsBye_collapseWs (l : List Nat) : containsBye (collapseWs l) = containsBye l :=
  cb_cw_len l.length l (le_refl _)

/-- The canonicalizer's final transform stages introduce no bye pattern. -/
theorem containsBye_pipeline_false {s1 : List Nat} (h : containsBye s1 = false) :
    containsBye (pyUpper (pyStrip (collapseWs (replaceAmp s1)))) = false := by
  rw [containsBye_pyUpper]
  by_contra hB
  rw [Bool.not_eq_false] at hB
  have h2 := containsBye_of_pyStrip hB
  rw [containsBye_collapseWs, containsBye_replaceAmp] at h2
  rw [h2] at h
  cases h

/-- Decomposition of a two-character sublist along a head. -/
theorem pair_sublist_cons {a b c : Nat} {r : List Nat} (h : List.Sublist [a, b] (c :: r)) :
    (c = a ∧ b ∈ r) ∨ List.Sublist [a, b] r := by
  cases h with
  | cons _ hs => exact Or.inr hs
  | cons₂ _ hs => exact Or.inl ⟨rfl, List.singleton_sublist.mp hs⟩

/-- Construction of a two-character sublist from a head and a member. -/
theorem pair_sublist_of_mem {a b : Nat} {r : List Nat} (h : b ∈ r) :
    List.Sublist [a, b] (a :: r) :=
  (List.singleton_sublist.mpr h).cons₂ a

/-- The parenthetical removal yields a sublist. -/
theorem rpGo_sublist : ∀ (f : Nat) (l : List Nat), List.Sublist (rpGo f l) l := by
  intro f
  induction f with
  | zero => intro l; exact List.Sublist.refl l
  | succ f ih =>
    intro l
    cases l with
    | nil => exact List.Sublist.refl _
    | cons c t =>
      rw [rpGo]
      by_cases hc : c = 40 ∧ 41 ∈ t
      · rw [if_pos hc]
        exact ((ih _).trans ((List.tail_sublist _).trans (List.dropWhile_sublist _))).trans
          (List.sublist_cons_self c t)
      · rw [if_neg hc]
        exact (ih t).cons₂ c

theorem removeParens_sublist (l : List Nat) : List.Sublist (removeParens l) l :=
  rpGo_sublist _ _

/-- The output of the parenthetical removal has no `(` with a later `)`
(codes 40 and 41): the pattern `[40, 41]` is not one of its sublists. -/
theorem rpGo_parenFree : ∀ (f : Nat) (l : List Nat), l.length ≤ f →
    ¬ List.Sublist [40, 41] (rpGo f l) := by
  intro f
  induction f with
  | zero =>
    intro l h hs
    have hl : l = [] := List.length_eq_zero.mp (Nat.le_zero.mp h)
    subst hl
    simp [rpGo] at hs
  | succ f ih =>
    intro l h hs
    cases l with
    | nil => simp [rpGo] at hs
    | cons c t =>
      simp only [List.length_cons, Nat.succ_le_succ_iff] at h
      rw [rpGo] at hs
      by_cases hc : c = 40 ∧ 41 ∈ t
      · rw [if_pos hc] at hs
        have hd := (List.dropWhile_sublist (fun d => d != 41) (l := t)).length_le
        have ht := List.length_tail (t.dropWhile (fun d => d != 41))
        exact ih _ (by omega) hs
      · rw [if_neg hc] at hs
        rcases pair_sublist_cons hs with ⟨h40, h41⟩ | hs2
        · exact hc ⟨h40, (rpGo_sublist f t).subset h41⟩
        · exact ih t h hs2

theorem removeParens_parenFree (l : List Nat) : ¬ List.Sublist [40, 41] (removeParens l) :=
  rpGo_parenFree _ _ (le_refl _)

/-- The parenthetical removal is the identity on strings with no `(`
followed by a later `)`. -/
theorem rpGo_id : ∀ (f : Nat) {l : List Nat}, ¬ List.Sublist [40, 41] l → rpGo f l = l := by
  intro f
  induction f with
  | zero => intro l _; rfl
  | succ f ih =>
    intro l h
    cases l with
    | nil => rfl
    | cons c t =>
      rw [rpGo]
      by_cases hc : c = 40 ∧ 41 ∈ t
      · exact absurd (hc.1 ▸ pair_sublist_of_mem hc.2) h
      · rw [if_neg hc, ih (fun hs => h (hs.cons c))]

theorem removeParens_eq_self {l : List Nat} (h : ¬ List.Sublist [40, 41] l) :
    removeParens l = l :=
  rpGo_id _ h

/-- Freedom from the paren pattern is inherited by sublists. -/
theorem parenFree_of_sublist {l' l : List Nat} (hsub : List.Sublist l' l)
    (h : ¬ List.Sublist [40, 41] l) : ¬ List.Sublist [40, 41] l' :=
  fun hs => h (hs.trans hsub)

/-- The ampersand replacement reflects the paren pattern. -/
theorem pair_sublist_replaceAmp : ∀ {l : List Nat},
    List.Sublist [40, 41] (replaceAmp l) → List.Sublist [40, 41] l := by
  intro l
  induction l with
  | nil => intro h; exact h
  | cons c t ih =>
    intro h
    by_cases hc : c = 38
    · subst hc
      rw [replaceAmp, if_pos rfl] at h
      rcases pair_sublist_cons h with ⟨hEq, _⟩ | h2
      · omega
      rcases pair_sublist_cons h2 with ⟨hEq, _⟩ | h3
      · omega
      rcases pair_sublist_cons h3 with ⟨hEq, _⟩ | h4
      · omega
      exact (ih h4).cons 38
    · rw [replaceAmp, if_neg hc] at h
      rcases pair_sublist_cons h with ⟨h40, h41⟩ | h2
      · rcases mem_replaceAmp h41 with h3 | h3 | h3 | h3
        · omega
        · omega
        · omega
        · exact h40 ▸ pair_sublist_of_mem h3
      · exact (ih h2).cons c

/-- The whitespace collapse reflects the paren pattern. -/
theorem pair_sublist_cwGo : ∀ (f : Nat) {l : List Nat},
    List.Sublist [40, 41] (cwGo f l) → List.Sublist [40, 41] l := by
  intro f
  induction f with
  | zero => intro l h; exact h
  | succ f ih =>
    intro l h
    cases l with
    | nil => exact h
    | cons c t =>
      rw [cwGo] at h
      by_cases hw : isSpaceCode c = true
      · rw [if_pos hw] at h
        rcases pair_sublist_cons h with ⟨hEq, _⟩ | h2
        · omega
        · exact ((ih h2).trans (List.dropWhile_sublist _)).cons c
      · rw [if_neg hw] at h
        rcases pair_sublist_cons h with ⟨h40, h41⟩ | h2
        · rcases mem_cwGo f t h41 with h3 | h3
          · omega
          · exact h40 ▸ pair_sublist_of_mem h3
        · exact (ih h2).cons c

theorem pair_sublist_collapseWs {l : List Nat}
    (h : List.Sublist [40, 41] (collapseWs l)) : List.Sublist [40, 41] l :=
  pair_sublist_cwGo _ h

/-- Uppercasing reflects the paren pattern. -/
theorem pair_sublist_pyUpper : ∀ {l : List Nat},
    List.Sublist [40, 41] (pyUpper l) → List.Sublist [40, 41] l := by
  intro l
  induction l with
  | nil => intro h; exact h
  | cons c t ih =>
    intro h
    rcases pair_sublist_cons h with ⟨h40, h41⟩ | h2
    · have hc : c = 40 := (toUpperCode_eq_iff (by omega) (by omega) c).mp h40
      have h41' : (41 : Nat) ∈ t := (mem_pyUpper_iff (by omega) (by omega) t).mp h41
      exact hc ▸ pair_sublist_of_mem h41'
    · exact (ih h2).cons c

/-- Unfolding of `norm_constituency` on a nonempty argument through the
staging functions. -/
theorem norm_constituency_unfold (x : List Nat) (hx : x ≠ []) :
    norm_constituency x = NormRet.str (pyUpper (match lookupMap (normStages x) with
      | some v => v
      | none => normStages x)) := by
  rw [norm_constituency, if_neg hx]
  rfl

/-- Stage two output is carved out of the parenthetical removal output. -/
theorem normS2_sublist (x : List Nat) : List.Sublist (normS2 x) (removeParens x) := by
  rw [normS2]
  split
  · exact (pyStrip_sublist _).trans ((List.takeWhile_sublist _).trans (pyStrip_sublist _))
  · exact pyStrip_sublist _

/-- The alias-lookup input never contains a `(` followed by a `)`. -/
theorem normStages_parenFree (x : List Nat) : ¬ List.Sublist [40, 41] (normStages x) := by
  intro hS
  rw [normStages] at hS
  have h1 := (pair_sublist_pyUpper hS).trans (pyStrip_sublist _)
  have h2 := pair_sublist_replaceAmp (pair_sublist_collapseWs h1)
  exact removeParens_parenFree x (h2.trans (normS2_sublist x))

/-- The alias-lookup input never contains the bye-election pattern. -/
theorem normStages_noBye (x : List Nat) : containsBye (normStages x) = false := by
  by_cases hb : containsBye (normS1 x) = true
  · have h58 : (58 : Nat) ∉ normS2 x := by
      rw [normS2, if_pos hb]
      intro hmem
      have hm := List.mem_takeWhile_imp ((pyStrip_sublist _).subset hmem)
      simp at hm
    have h58' : (58 : Nat) ∉ normStages x := by
      rw [normStages]
      intro hmem
      have hm1 := (mem_pyUpper_iff (by omega) (by omega) _).mp hmem
      have hm2 := (pyStrip_sublist _).subset hm1
      rcases mem_collapseWs hm2 with hEq | hm3
      · omega
      rcases mem_replaceAmp hm3 with hEq | hEq | hEq | hm4
      · omega
      · omega
      · omega
      · exact h58 hm4
    cases hcb : containsBye (normStages x) with
    | false => rfl
    | true => exact absurd (containsBye_mem hcb) h58'
  · have hs2 : normS2 x = normS1 x := by rw [normS2, if_neg hb]
    rw [normStages, hs2]
    exact containsBye_pipeline_false (by simpa using hb)

/-- The alias-lookup input never contains an ampersand. -/
theorem normStages_ampFree (x : List Nat) : (38 : Nat) ∉ normStages x := by
  rw [normStages]
  intro hmem
  have hm1 := (mem_pyUpper_iff (by omega) (by omega) _).mp hmem
  have hm2 := (pyStrip_sublist _).subset hm1
  rcases mem_collapseWs hm2 with hEq | hm3
  · omega
  · exact amp_not_mem_replaceAmp _ hm3

/-- The alias-lookup input is in whitespace normal form. -/
theorem normStages_collapsed (x : List Nat) : collapsedB (normStages x) = true := by
  rw [normStages, collapsedB_pyUpper]
  exact collapsedB_pyStrip (collapsedB_collapseWs _)

theorem normStages_noLead (x : List Nat) : noLeadWs (normStages x) = true := by
  rw [normStages, noLeadWs_pyUpper]
  exact noLeadWs_pyStrip _

theorem normStages_noTrail (x : List Nat) : noTrailWs (normStages x) = true := by
  rw [normStages, noTrailWs_pyUpper]
  exact noTrailWs_pyStrip _

theorem normStages_pyUpper (x : List Nat) : pyUpper (normStages x) = normStages x := by
  rw [normStages]
  exact pyUpper_idem _

/-- On a string satisfying all pipeline invariants, the staging functions
act as the identity. -/
theorem normStages_eq_self {s : List Nat}
    (hpf : ¬ List.Sublist [40, 41] s) (hbye : containsBye s = false)
    (hamp : (38 : Nat) ∉ s) (hcol : collapsedB s = true)
    (hlead : noLeadWs s = true) (htrail : noTrailWs s = true)
    (hup : pyUpper s = s) : normStages s = s := by
  have h1 : normS1 s = s := by
    rw [normS1, removeParens_eq_self hpf, pyStrip_eq_self hlead htrail]
  have h2 : normS2 s = s := by
    rw [normS2, h1, hbye]
    simp
  rw [normStages, h2, replaceAmp_eq_self hamp, collapseWs_eq_self hcol,
    pyStrip_eq_self hlead htrail, hup]

/-- A string fixed by the stages and absent from the alias table is a fixed
point of the whole canonicalizer. -/
theorem norm_fixed {s : List Nat} (hs : s ≠ []) (hST : normStages s = s)
    (hup : pyUpper s = s) (hmap : lookupMap s = none) :
    norm_constituency s = NormRet.str s := by
  rw [norm_constituency_unfold s hs, hST, hmap]
  show NormRet.str (pyUpper s) = NormRet.str s
  rw [hup]

/-- Claim C8 (amended): the canonicalizer is idempotent on every input whose
canonical form is a nonempty string — any nonempty string output of
`norm_constituency` is a fixed point of `norm_constituency`.  (As stated
over all strings the claim fails: an input canonicalizing to the empty
string hits the falsy short-circuit on the second application, which
returns the pair `("", "")` instead of the string, see the
counterexample.) -/
theorem norm_constituency_idem_nonempty : ∀ (x s : List Nat),
    norm_constituency x = NormRet.str s → s ≠ [] →
    norm_constituency s = NormRet.str s := by
  intro x s h hs
  by_cases hx : x = []
  · rw [hx, norm_constituency, if_pos rfl] at h
    simp at h
  · rw [norm_constituency_unfold x hx, NormRet.str.injEq] at h
    cases hmap : lookupMap (normStages x) with
    | some v =>
      rw [hmap] at h
      have h' : pyUpper v = s := h
      have hfind0 := hmap
      rw [lookupMap] at hfind0
      cases hfind : constituency_map.find? (fun p => p.1 == normStages x) with
      | none => rw [hfind] at hfind0; simp at hfind0
      | some p =>
        rw [hfind] at hfind0
        simp only [Option.map_some', Option.some.injEq] at hfind0
        have hmem := List.mem_of_find?_eq_some hfind
        rw [← h', ← hfind0]
        simp only [constituency_map, List.mem_cons, List.not_mem_nil, or_false] at hmem
        rcases hmem with rfl | rfl | rfl | rfl | rfl | rfl | rfl | rfl | rfl | rfl | rfl |
          rfl | rfl | rfl | rfl | rfl | rfl | rfl <;> decide
    | none =>
      rw [hmap] at h
      have h' : pyUpper (normStages x) = s := h
      have hST : normStages x = s := by rw [← h', normStages_pyUpper]
      have hup : pyUpper s = s := by rw [← hST, normStages_pyUpper]
      have hSTs : normStages s = s := by
        apply normStages_eq_self
        · rw [← hST]; exact normStages_parenFree x
        · rw [← hST]; exact normStages_noBye x
        · rw [← hST]; exact normStages_ampFree x
        · rw [← hST]; exact normStages_collapsed x
        · rw [← hST]; exact normStages_noLead x
        · rw [← hST]; exact normStages_noTrail x
        · exact hup
      have hmapS : lookupMap s = none := by rw [← hST]; exact hmap
      exact norm_fixed hs hSTs hup hmapS

/-- A colon (code 58) survives none of the final canonicalizer stages:
if the stage-two output has no colon, neither has the alias-lookup input. -/
theorem normStages_no_colon {x : List Nat} (h : (58 : Nat) ∉ normS2 x) :
    (58 : Nat) ∉ normStages x := by
  rw [normStages]
  intro hmem
  have hm1 := (mem_pyUpper_iff (by omega) (by omega) _).mp hmem
  have hm2 := (pyStrip_sublist _).subset hm1
  rcases mem_collapseWs hm2 with hEq | hm3
  · omega
  rcases mem_replaceAmp hm3 with hEq | hEq | hEq | hm4
  · omega
  · omega
  · omega
  · exact h hm4

/-- The alias-table values, uppercased, contain no colon. -/
theorem map_values_no_colon :
    ∀ p ∈ constituency_map, (58 : Nat) ∉ pyUpper p.2 := by decide

/-- A colon-free raw name canonicalizes to a colon-free canonical name. -/
theorem norm_no_colon : ∀ (x s : List Nat), (58 : Nat) ∉ x →
    norm_constituency x = NormRet.str s → (58 : Nat) ∉ s := by
  intro x s hx h
  by_cases hxe : x = []
  · rw [hxe, norm_constituency, if_pos rfl] at h
    simp at h
  · rw [norm_constituency_unfold x hxe, NormRet.str.injEq] at h
    have h1 : (58 : Nat) ∉ normS1 x :=
      fun hm => hx (((pyStrip_sublist _).trans (removeParens_sublist x)).subset hm)
    have hbye : containsBye (normS1 x) = false := by
      cases hcb : containsBye (normS1 x) with
      | false => rfl
      | true => exact absurd (containsBye_mem hcb) h1
    have h2 : (58 : Nat) ∉ normS2 x := by
      rw [normS2, if_neg (by simp [hbye])]
      exact h1
    have h4 := normStages_no_colon h2
    cases hmap : lookupMap (normStages x) with
    | some v =>
      rw [hmap] at h
      have h' : pyUpper v = s := h
      have hfind0 := hmap
      rw [lookupMap] at hfind0
      cases hfind : constituency_map.find? (fun p => p.1 == normStages x) with
      | none => rw [hfind] at hfind0; simp at hfind0
      | some p =>
        rw [hfind] at hfind0
        simp only [Option.map_some', Option.some.injEq] at hfind0
        rw [← h', ← hfind0]
        exact map_values_no_colon p (List.mem_of_find?_eq_some hfind)
    | none =>
      rw [hmap] at h
      have h' : pyUpper (normStages x) = s := h
      rw [← h', normStages_pyUpper]
      exact h4

/-- Splitting at the first colon recovers the two halves of a key whose
left half is colon-free. -/
theorem splitKey_append : ∀ (a b : List Nat), (58 : Nat) ∉ a →
    splitKey (a ++ 58 :: b) = (a, b) := by
  intro a
  induction a with
  | nil =>
    intro b _
    rw [splitKey]
    simp [List.takeWhile, List.dropWhile]
  | cons c a' ih =>
    intro b h
    simp only [List.mem_cons, not_or] at h
    have hcb := ih b h.2
    rw [splitKey, Prod.mk.injEq] at hcb
    have hc : (c != 58) = true := by
      simp only [bne_iff_ne]
      exact fun hEq => h.1 hEq.symm
    rw [splitKey, List.cons_append, List.takeWhile_cons, List.dropWhile_cons,
      if_pos hc, if_pos hc, hcb.1, hcb.2]

/-- Digits are not whitespace. -/
theorem isDigit_not_ws {c : Nat} (h : isDigitCode c = true) : isSpaceCode c = false := by
  simp only [isDigitCode, decide_eq_true_eq] at h
  simp only [isSpaceCode, decide_eq_false_iff_not]
  omega

theorem noLeadWs_of_all {l : List Nat} (h : ∀ c ∈ l, isSpaceCode c = false) :
    noLeadWs l = true := by
  cases l with
  | nil => rfl
  | cons c t => simp [noLeadWs, h c (List.mem_cons_self _ _)]

theorem noTrailWs_of_all : ∀ {l : List Nat}, (∀ c ∈ l, isSpaceCode c = false) →
    noTrailWs l = true := by
  intro l
  induction l with
  | nil => intro _; rfl
  | cons c t ih =>
    intro h
    cases t with
    | nil => simp [noTrailWs, h c (List.mem_cons_self _ _)]
    | cons d t2 =>
      show noTrailWs (d :: t2) = true
      exact ih (fun e he => h e (List.mem_cons_of_mem _ he))

theorem collapsedB_of_all : ∀ {l : List Nat}, (∀ c ∈ l, isSpaceCode c = false) →
    collapsedB l = true := by
  intro l
  induction l with
  | nil => intro _; rfl
  | cons c t ih =>
    intro h
    cases t with
    | nil => exact (collapsedB_one_iff c).mpr (Or.inl (h c (List.mem_cons_self _ _)))
    | cons d t2 =>
      refine (collapsedB_two_iff c d t2).mpr
        ⟨Or.inl (h c (List.mem_cons_self _ _)), Or.inl (h c (List.mem_cons_self _ _)),
         ih (fun e he => h e (List.mem_cons_of_mem _ he))⟩

/-- Every alias-table key contains an uppercase letter. -/
theorem map_keys_have_letter :
    ∀ p ∈ constituency_map, ∃ c ∈ p.1, 65 ≤ c ∧ c ≤ 90 := by decide

/-- Claim C3 (amended): the normalization step of `norm_constituency` only
collapses whitespace, trims and uppercases — it does not erase non-letter
characters, so a nonempty all-digit name canonicalizes to itself (every
stage leaves it unchanged and it matches no alias key), not to the empty
string. -/
theorem norm_digits : ∀ (x : List Nat), x ≠ [] → (∀ c ∈ x, isDigitCode c = true) →
    norm_constituency x = NormRet.str x := by
  intro x hx hd
  have hws : ∀ c ∈ x, isSpaceCode c = false := fun c hc => isDigit_not_ws (hd c hc)
  have hpf : ¬ List.Sublist [40, 41] x := by
    intro hS
    have h40 : (40 : Nat) ∈ x := hS.subset (List.mem_cons_self _ _)
    have := hd 40 h40
    simp [isDigitCode] at this
  have h58 : (58 : Nat) ∉ x := by
    intro hm
    have := hd 58 hm
    simp [isDigitCode] at this
  have hbye : containsBye x = false := by
    cases hcb : containsBye x with
    | false => rfl
    | true => exact absurd (containsBye_mem hcb) h58
  have hamp : (38 : Nat) ∉ x := by
    intro hm
    have := hd 38 hm
    simp [isDigitCode] at this
  have hup : pyUpper x = x := by
    rw [pyUpper, List.map_congr_left (fun a ha => toUpperCode_digit (hd a ha)), List.map_id']
  have hST : normStages x = x :=
    normStages_eq_self hpf hbye hamp (collapsedB_of_all hws) (noLeadWs_of_all hws)
      (noTrailWs_of_all hws) hup
  have hmap : lookupMap x = none := by
    rw [lookupMap]
    rw [List.find?_eq_none.mpr ?_]
    · rfl
    · intro p hp hbeq
      have hpx : p.1 = x := by
        have := (beq_iff_eq (a := p.1) (b := x)).mp hbeq
        exact this
      obtain ⟨c, hc, hcr⟩ := map_keys_have_letter p hp
      rw [hpx] at hc
      have := hd c hc
      simp only [isDigitCode, decide_eq_true_eq] at this
      omega
  exact norm_fixed hx hST hup hmap

/-- The `Rs` occurrence test is monotone under adding a head. -/
theorem hasRs_cons {c : Nat} {l : List Nat} (h : hasRs l = true) : hasRs (c :: l) = true := by
  cases l with
  | nil => cases h
  | cons d t =>
    rw [hasRs, h, Bool.or_true]

/-- The `Rs` occurrence test reflects from any `dropWhile` to the string. -/
theorem hasRs_of_dropWhile {p : Nat → Bool} : ∀ {l : List Nat},
    hasRs (l.dropWhile p) = true → hasRs l = true := by
  intro l
  induction l with
  | nil => intro h; exact h
  | cons c t ih =>
    intro h
    rw [List.dropWhile_cons] at h
    by_cases hc : p c = true
    · rw [if_pos hc] at h
      exact hasRs_cons (ih h)
    · rw [if_neg hc] at h
      exact h

/-- What remains right after a removed tilde segment starts with a newline
(or is empty). -/
theorem dropWhile_ne10_head : ∀ (l : List Nat),
    l.dropWhile (fun d => d != 10) = [] ∨
    ∃ u, l.dropWhile (fun d => d != 10) = 10 :: u := by
  intro l
  induction l with
  | nil => exact Or.inl rfl
  | cons c t ih =>
    rw [List.dropWhile_cons]
    by_cases hc : (c != 10) = true
    · rw [if_pos hc]
      exact ih
    · rw [if_neg hc]
      have : c = 10 := by
        simp only [bne_iff_ne, ne_eq, not_not] at hc
        exact hc
      exact Or.inr ⟨t, by rw [this]⟩

/-- The tilde removal reflects the `Rs` occurrence test: it cannot create a
new `Rs` adjacency, because every removed segment is followed by a newline. -/
theorem hasRs_stGo : ∀ (f : Nat) (l : List Nat), l.length ≤ f →
    hasRs (stGo f l) = true → hasRs l = true := by
  intro f
  induction f with
  | zero =>
    intro l hlen h
    have hl : l = [] := List.length_eq_zero.mp (Nat.le_zero.mp hlen)
    subst hl
    exact h
  | succ f ih =>
    intro l hlen h
    cases l with
    | nil => exact h
    | cons c t =>
      simp only [List.length_cons, Nat.succ_le_succ_iff] at hlen
      rw [stGo] at h
      by_cases hc : c = 126
      · rw [if_pos hc] at h
        have hd := (List.dropWhile_sublist (fun d => d != 10) (l := t)).length_le
        have h2 := ih _ (by omega) h
        exact hasRs_cons (hasRs_of_dropWhile h2)
      · rw [if_neg hc] at h
        cases hst : stGo f t with
        | nil => rw [hst] at h; cases h
        | cons d u =>
          rw [hst] at h
          rw [hasRs, Bool.or_eq_true] at h
          rcases h with h | h
          · rw [Bool.and_eq_true, beq_iff_eq, beq_iff_eq] at h
            cases t with
            | nil => cases f <;> simp [stGo] at hst
            | cons e t2 =>
              cases f with
              | zero =>
                simp only [List.length_cons] at hlen
                omega
              | succ f2 =>
                by_cases he : e = 126
                · exfalso
                  rw [stGo, if_pos he] at hst
                  rcases dropWhile_ne10_head t2 with hD | ⟨u2, hD⟩
                  · rw [hD] at hst
                    cases f2 <;> simp [stGo] at hst
                  · rw [hD] at hst
                    cases f2 with
                    | zero =>
                      simp only [stGo] at hst
                      have hd10 : d = 10 := ((List.cons.injEq _ _ _ _).mp hst.symm).1
                      omega
                    | succ f3 =>
                      rw [stGo, if_neg (by omega)] at hst
                      have hd10 : d = 10 := ((List.cons.injEq _ _ _ _).mp hst.symm).1
                      omega
                · rw [stGo, if_neg he] at hst
                  have hde : d = e := ((List.cons.injEq _ _ _ _).mp hst.symm).1
                  rw [hasRs]
                  have hb : (c == 82 && e == 115) = true := by
                    rw [Bool.and_eq_true, beq_iff_eq, beq_iff_eq]
                    exact ⟨h.1, hde ▸ h.2⟩
                  rw [hb, Bool.true_or]
          · have h2 : hasRs (stGo f t) = true := by rw [hst]; exact h
            exact hasRs_cons (ih t hlen h2)

theorem hasRs_stripTilde {l : List Nat} (h : hasRs (stripTilde l) = true) : hasRs l = true :=
  hasRs_stGo _ _ (le_refl _) h

/-- A successful `Rs` regex search implies the `Rs` marker occurs. -/
theorem rsSearch_hasRs : ∀ {l : List Nat} {g : List Nat},
    rsSearch l = some g → hasRs l = true := by
  intro l
  induction l with
  | nil => intro g h; cases h
  | cons c t ih =>
    intro g h
    rw [rsSearch] at h
    cases htry : tryRs (c :: t) with
    | some g2 =>
      cases t with
      | nil => simp [tryRs] at htry
      | cons c2 rest =>
        rw [tryRs] at htry
        by_cases hrs : c = 82 ∧ c2 = 115
        · rw [hasRs]
          have : (c == 82 && c2 == 115) = true := by
            rw [Bool.and_eq_true, beq_iff_eq, beq_iff_eq]
            exact hrs
          rw [this, Bool.true_or]
        · rw [if_neg hrs] at htry
          cases htry
    | none =>
      rw [htry] at h
      exact hasRs_cons (ih h)

/-- Without the case-sensitive `Rs` marker the money value degrades to zero. -/
theorem parse_money_no_rs {v : List Nat} (h : hasRs v = false) : parse_indian_money v = 0 := by
  rw [parse_indian_money]
  by_cases h1 : v = []
  · rw [if_pos h1]
  · rw [if_neg h1]
    by_cases h2 : v = strCodes ("Nil")
    · rw [if_pos h2]
    · rw [if_neg h2]
      cases hr : rsSearch (stripTilde v) with
      | none => rfl
      | some run =>
        exfalso
        have := hasRs_stripTilde (rsSearch_hasRs hr)
        rw [this] at h
        cases h

/-- Cons unfolding of the dict lookup. -/
theorem dictGet?_cons {V : Type} (p : String × V) (d : List (String × V)) (k : String) :
    dictGet? (p :: d) k = if p.1 = k then some p.2 else dictGet? d k := by
  rw [dictGet?, List.find?_cons]
  by_cases hp : p.1 = k
  · rw [if_pos hp]
    have hb : (p.1 == k) = true := by simp [hp]
    rw [hb]
    rfl
  · rw [if_neg hp]
    have hb : (p.1 == k) = false := by simp [hp]
    rw [hb]
    rfl

/-- Replacing the binding of a different key leaves a lookup unchanged. -/
theorem dictGet?_map_set_ne {V : Type} {k' k : String} {v : V} (hne : k' ≠ k) :
    ∀ (d : List (String × V)),
    dictGet? (d.map (fun p => if p.1 = k' then (k', v) else p)) k = dictGet? d k := by
  intro d
  induction d with
  | nil => rfl
  | cons p d' ih =>
    rw [List.map_cons]
    by_cases hp : p.1 = k'
    · rw [if_pos hp, dictGet?_cons, dictGet?_cons]
      rw [if_neg (show ¬((k', v) : String × V).1 = k from hne),
        if_neg (show ¬p.1 = k from hp ▸ hne)]
      exact ih
    · rw [if_neg hp, dictGet?_cons, dictGet?_cons]
      by_cases hpk : p.1 = k
      · rw [if_pos hpk, if_pos hpk]
      · rw [if_neg hpk, if_neg hpk]
        exact ih

/-- Appending a binding for a different key leaves a lookup unchanged. -/
theorem dictGet?_append_ne {V : Type} {k' k : String} {v : V} (hne : k' ≠ k) :
    ∀ (d : List (String × V)), dictGet? (d ++ [(k', v)]) k = dictGet? d k := by
  intro d
  induction d with
  | nil =>
    rw [List.nil_append, dictGet?_cons, if_neg (show ¬((k', v) : String × V).1 = k from hne)]
  | cons p d' ih =>
    rw [List.cons_append, dictGet?_cons, dictGet?_cons]
    by_cases hpk : p.1 = k
    · rw [if_pos hpk, if_pos hpk]
    · rw [if_neg hpk, if_neg hpk]
      exact ih

/-- Setting a different key leaves a lookup unchanged. -/
theorem dictGet?_dictSet_ne {V : Type} {d : List (String × V)} {k' k : String} {v : V}
    (hne : k' ≠ k) : dictGet? (dictSet d k' v) k = dictGet? d k := by
  rw [dictSet]
  by_cases hc : dictContains d k' = true
  · rw [if_pos hc]
    exact dictGet?_map_set_ne hne d
  · rw [if_neg hc]
    exact dictGet?_append_ne hne d

/-- Appending a fresh binding makes its key retrievable. -/
theorem dictGet?_append_self {V : Type} (d : List (String × V)) (k : String) (v : V)
    (h : dictContains d k = false) : dictGet? (d ++ [(k, v)]) k = some v := by
  induction d with
  | nil =>
    rw [List.nil_append, dictGet?_cons, if_pos rfl]
  | cons p d' ih =>
    rw [dictContains, dictKeys, List.map_cons, List.contains_cons, Bool.or_eq_false_iff] at h
    have hpk : ¬ p.1 = k := by
      intro hEq
      have := h.1
      rw [hEq] at this
      simp at this
    rw [List.cons_append, dictGet?_cons, if_neg hpk]
    exact ih (by rw [dictContains, dictKeys]; exact h.2)

/-- Policy of the merge step on a fresh field name: inserted verbatim at
the end. -/
theorem mergeStep_fresh {V : Type} (acc : List (String × V)) (k : String) (v : V)
    (h : dictContains acc k = false) : mergeStep acc (k, v) = acc ++ [(k, v)] := by
  rw [mergeStep, if_neg (by simp [h]), dictSet, if_neg (by simp [h])]

/-- Policy of the merge step on a colliding field name: the value goes in
under the re-prefixed name and the original binding is untouched. -/
theorem mergeStep_collision {V : Type} (acc : List (String × V)) (k : String) (v : V)
    (h : dictContains acc k = true) :
    mergeStep acc (k, v) = dictSet acc (("sansad_") ++ k) v ∧
    dictGet? (mergeStep acc (k, v)) k = dictGet? acc k := by
  have hne : ("sansad_") ++ k ≠ k := by
    intro hEq
    have hlen := congrArg String.length hEq
    rw [String.length_append] at hlen
    have h7 : (("sansad_") : String).length = 7 := by decide
    omega
  constructor
  · rw [mergeStep, if_pos h]
  · rw [mergeStep, if_pos h]
    exact dictGet?_dictSet_ne hne

/-- Bookkeeping of the main merge loop: each primary record adds one output
row and one match exactly when its key is found in the Sansad index. -/
theorem mergeLoop_aux (lkp : List (String × List (List (String × String))))
    (emp : List (String × String)) :
    ∀ (l : List (List (String × String))) (st : List (List (String × String)) × Nat),
    ∃ k, (List.foldl (mergeLoopStep lkp emp) st l).1.length = st.1.length + k ∧
      (List.foldl (mergeLoopStep lkp emp) st l).2 = st.2 + k ∧ k ≤ l.length := by
  intro l
  induction l with
  | nil => intro st; exact ⟨0, by simp, by simp, by simp⟩
  | cons m t ih =>
    intro st
    rw [List.foldl_cons]
    obtain ⟨k, h1, h2, h3⟩ := ih (mergeLoopStep lkp emp st m)
    cases hf : find_sansad_by_constituency ((dictGet? m ("myneta_constituency_key")).getD ("")) lkp with
    | some srec =>
      have hstep : mergeLoopStep lkp emp st m =
          (st.1 ++ [empowered_step ((dictGet? m ("myneta_constituency_key")).getD ("")) emp
            (mergeRecords m srec)], st.2 + 1) := by
        rw [mergeLoopStep]
        rw [hf]
      rw [hstep] at h1 h2 ⊢
      refine ⟨k + 1, ?_, ?_, ?_⟩
      · rw [h1]
        simp only [List.length_append, List.length_cons, List.length_nil]
        omega
      · rw [h2]
        omega
      · simp only [List.length_cons]
        omega
    | none =>
      have hstep : mergeLoopStep lkp emp st m = st := by
        rw [mergeLoopStep]
        rw [hf]
      rw [hstep] at h1 h2 ⊢
      exact ⟨k, h1, h2, by simp only [List.length_cons]; omega⟩

/-- Exact value of the crore conversion at the docstring's first example. -/
theorem crores_656712498 : rupees_to_crores (PyNumber.num 656712498) = 6567 / 100 := by
  rw [rupees_to_crores, if_neg (by norm_num)]
  have hf : ⌊(656712498 : ℚ) / 10000000 * 100⌋ = 6567 := by
    rw [Int.floor_eq_iff]
    norm_num
  rw [round2, roundHalfEven, hf]
  norm_num

/-- Exact value of the crore conversion at the docstring's second example. -/
theorem crores_4209587 : rupees_to_crores (PyNumber.num 4209587) = 21 / 50 := by
  rw [rupees_to_crores, if_neg (by norm_num)]
  have hf : ⌊(4209587 : ℚ) / 10000000 * 100⌋ = 42 := by
    rw [Int.floor_eq_iff]
    norm_num
  rw [round2, roundHalfEven, hf]
  norm_num

/-- Exact value of the crore conversion at minus one crore. -/
theorem crores_neg_crore : rupees_to_crores (PyNumber.num (-10000000)) = -1 := by
  rw [rupees_to_crores, if_neg (by norm_num)]
  have hf : ⌊(-10000000 : ℚ) / 10000000 * 100⌋ = -100 := by
    rw [Int.floor_eq_iff]
    norm_num
  rw [round2, roundHalfEven, hf]
  norm_num

/-- The net worth of two empty money strings is zero. -/
theorem networth_empty : networth [] [] = 0 := by
  rw [networth]
  rw [show parse_indian_money [] = 0 from by decide]
  rw [show ((0 - 0 : ℤ) : ℚ) = 0 from by norm_num]
  rw [rupees_to_crores, if_pos rfl]

/-- The net worth is negative when liabilities exceed assets. -/
theorem networth_nil_heavy : networth (strCodes ("Nil")) (strCodes ("Rs 2,00,00,000")) = -2 := by
  rw [networth]
  rw [show parse_indian_money (strCodes ("Nil")) = 0 from by decide]
  rw [show parse_indian_money (strCodes ("Rs 2,00,00,000")) = 20000000 from by decide]
  rw [show ((0 - 20000000 : ℤ) : ℚ) = -20000000 from by norm_num]
  rw [rupees_to_crores, if_neg (by norm_num)]
  have hf : ⌊(-20000000 : ℚ) / 10000000 * 100⌋ = -200 := by
    rw [Int.floor_eq_iff]
    norm_num
  rw [round2, roundHalfEven, hf]
  norm_num

/-- Claim C1 (counterexample): a primary record whose composite key has no
counterpart in the secondary index does NOT lead to an emitted row — with
one MyNeta record and an empty Sansad index the merge loop produces an
empty output list (and zero matches), not a row padded with empty
secondary fields. -/
theorem unmatched_primary_dropped :
    mergeLoop [[(("myneta_constituency_key"), ("FOO:BAR"))]] [] [] = ([], 0) ∧
    ([[(("myneta_constituency_key"), ("FOO:BAR"))]] : List (List (String × String))).length = 1 := by
  exact ⟨by decide, rfl⟩

/-- Claim C1 (amended): the merge loop emits exactly the matched primary
records — the number of merged rows always equals the match count, which
is at most the number of primary records; unmatched records are skipped
(only logged), not emitted with empty secondary fields. -/
theorem merged_rows_eq_match_count : ∀ (myneta : List (List (String × String)))
    (lkp : List (String × List (List (String × String)))) (emp : List (String × String)),
    (mergeLoop myneta lkp emp).1.length = (mergeLoop myneta lkp emp).2 ∧
    (mergeLoop myneta lkp emp).2 ≤ myneta.length := by
  intro myneta lkp emp
  obtain ⟨k, h1, h2, h3⟩ := mergeLoop_aux lkp emp myneta ([], 0)
  rw [mergeLoop]
  constructor
  · rw [h1, h2]
    simp
  · rw [h2]
    simpa using h3

/-- Claim C2 (counterexample): the two raw names do not canonicalize to the
same token — the alias value is the hyphenated spelling without spaces, so
the alias substitution does not reconcile them. -/
theorem canonical_alias_tokens_differ :
    norm_constituency (strCodes ("Bardhaman - Durgapur (SC)")) ≠
    norm_constituency (strCodes ("BURDWAN - DURGAPUR")) := by decide

/-- Claim C2 (amended): `canonicalize("Bardhaman - Durgapur (SC)")` is
`"BARDHAMAN - DURGAPUR"` (spaces kept around the hyphen) while
`canonicalize("BURDWAN - DURGAPUR")` is the alias value uppercased,
`"BARDHAMAN-DURGAPUR"`; the two canonical tokens differ. -/
theorem bardhaman_burdwan_values :
    norm_constituency (strCodes ("Bardhaman - Durgapur (SC)")) =
      NormRet.str (strCodes ("BARDHAMAN - DURGAPUR")) ∧
    norm_constituency (strCodes ("BURDWAN - DURGAPUR")) =
      NormRet.str (strCodes ("BARDHAMAN-DURGAPUR")) ∧
    strCodes ("BARDHAMAN - DURGAPUR") ≠ strCodes ("BARDHAMAN-DURGAPUR") := by
  exact ⟨by decide, by decide, by decide⟩

/-- Claim C3 (counterexample): an input consisting only of digits does not
canonicalize to the empty string. -/
theorem digits_not_erased : norm_constituency (strCodes ("123")) ≠ NormRet.str [] := by decide

/-- Claim C3 (witness): the amended statement applied at the concrete
all-digit input `"42"`. -/
theorem norm_digits_witness : norm_constituency (strCodes ("42")) = NormRet.str (strCodes ("42")) :=
  norm_digits (strCodes ("42")) (by decide) (by decide)

/-- Claim C4 (counterexample): converting 656712498 rupees does not give
6.57 crores — the spec copied the docstring's off-by-ten example. -/
theorem crores_not_657 : rupees_to_crores (PyNumber.num 656712498) ≠ 657 / 100 := by
  rw [crores_656712498]
  norm_num

/-- Claim C4 (amended): `to_major_unit(656712498.0)` equals 65.67 and
`to_major_unit(4209587.0)` equals 0.42, converting rupees into crores of
10,000,000 rupees rounded to two decimals. -/
theorem crores_corrected_values :
    rupees_to_crores (PyNumber.num 656712498) = 6567 / 100 ∧
    rupees_to_crores (PyNumber.num 4209587) = 21 / 50 :=
  ⟨crores_656712498, crores_4209587⟩

/-- Claim C5: the merge field-collision policy — a secondary field absent
from the accumulator is appended verbatim; a colliding field is stored
under the re-prefixed name `"sansad_" + name` and the accumulator's value
for the colliding name is never overwritten; in particular merging the
primary `x:1` with the secondary `x:2, y:3` yields
`x:1, sansad_x:2, y:3` (the secondary-source prefix in this program is
`sansad_`). -/
theorem merge_collision_policy :
    (∀ (acc : List (String × Int)) (k : String) (v : Int), dictContains acc k = false →
      mergeStep acc (k, v) = acc ++ [(k, v)]) ∧
    (∀ (acc : List (String × Int)) (k : String) (v : Int), dictContains acc k = true →
      mergeStep acc (k, v) = dictSet acc (("sansad_") ++ k) v ∧
      dictGet? (mergeStep acc (k, v)) k = dictGet? acc k) ∧
    mergeRecords [(("x"), (1 : Int))] [(("x"), 2), (("y"), 3)] =
      [(("x"), 1), (("sansad_x"), 2), (("y"), 3)] := by
  refine ⟨fun acc k v h => mergeStep_fresh acc k v h,
    fun acc k v h => mergeStep_collision acc k v h, ?_⟩
  decide

/-- Claim C5 (witness): the merge policy applied at concrete accumulators,
a fresh insertion and a collision. -/
theorem merge_collision_policy_witness :
    mergeStep ([] : List (String × Int)) (("a"), 5) = [(("a"), 5)] ∧
    dictGet? (mergeStep [(("x"), (1 : Int))] (("x"), 2)) ("x") =
      dictGet? [(("x"), (1 : Int))] ("x") :=
  ⟨merge_collision_policy.1 [] ("a") 5 (by decide),
   (merge_collision_policy.2.1 [(("x"), (1 : Int))] ("x") 2 (by decide)).2⟩

/-- Claim C6 (counterexample): a negative input is not sent to `0.0` — the
falsiness test only catches zero, so minus one crore converts to `-1.0`,
not `0.0`. -/
theorem negative_crores_not_zero : rupees_to_crores (PyNumber.num (-10000000)) ≠ 0 := by
  rw [crores_neg_crore]
  norm_num

/-- Claim C6 (amended): `to_major_unit` returns `0.0` for non-numeric and
zero (falsy) inputs; every other numeric input, negative ones included, is
divided by 10,000,000 and rounded to two decimals — so minus one crore of
rupees gives `-1.0`, not `0.0`. -/
theorem rupees_to_crores_cases :
    rupees_to_crores PyNumber.nonNum = 0 ∧
    rupees_to_crores (PyNumber.num 0) = 0 ∧
    (∀ q : ℚ, q ≠ 0 → rupees_to_crores (PyNumber.num q) = round2 (q / 10000000)) ∧
    rupees_to_crores (PyNumber.num (-10000000)) = -1 := by
  refine ⟨rfl, by rw [rupees_to_crores, if_pos rfl], fun q hq => ?_, crores_neg_crore⟩
  rw [rupees_to_crores, if_neg hq]

/-- Claim C6 (witness): the division-and-round branch applied at the
concrete nonzero input 25,000,000. -/
theorem rupees_to_crores_cases_witness :
    rupees_to_crores (PyNumber.num 25000000) = round2 ((25000000 : ℚ) / 10000000) :=
  rupees_to_crores_cases.2.2.1 25000000 (by norm_num)

/-- Claim C7: the projected net worth is
`to_major_unit(parse_amount(assets) - parse_amount(liabilities))`; it can
be negative; both readers are total, and two empty inputs parse to zero,
so the net worth of two empty strings is `0.0`. -/
theorem networth_claims :
    (∀ a l, networth a l = rupees_to_crores (PyNumber.num
      ((parse_indian_money a - parse_indian_money l : ℤ) : ℚ))) ∧
    parse_indian_money [] = 0 ∧
    networth [] [] = 0 ∧
    networth (strCodes ("Nil")) (strCodes ("Rs 2,00,00,000")) = -2 :=
  ⟨fun a l => rfl, by decide, networth_empty, networth_nil_heavy⟩

/-- Claim C8 (counterexample): idempotence fails on the empty canonical
form — `"()"` canonicalizes to the empty string, but canonicalizing the
empty string returns the pair `("", "")`, not that string, so applying the
canonicalizer to its own output changes it. -/
theorem norm_not_idempotent_on_empty :
    norm_constituency (strCodes ("()")) = NormRet.str [] ∧
    norm_constituency [] = NormRet.pair [] [] ∧
    NormRet.pair ([] : List Nat) [] ≠ NormRet.str [] := by
  exact ⟨by decide, by decide, by decide⟩

/-- Claim C8 (witness): idempotence applied at a concrete alias-table
input, whose canonical form is an alias value. -/
theorem norm_constituency_idem_witness :
    norm_constituency (strCodes ("BARDHAMAN-DURGAPUR")) =
      NormRet.str (strCodes ("BARDHAMAN-DURGAPUR")) :=
  norm_constituency_idem_nonempty (strCodes ("BURDWAN - DURGAPUR"))
    (strCodes ("BARDHAMAN-DURGAPUR")) (by decide) (by decide)

/-- Claim C9 (counterexample): the canonical name CAN contain the
separator `:` (code 58) — the canonicalizer does not strip non-letter
characters, so a raw name with a colon and no bye-election marker keeps
its colon. -/
theorem canonical_name_keeps_colon :
    norm_constituency (strCodes ("A:B")) = NormRet.str (strCodes ("A:B")) ∧
    (58 : Nat) ∈ strCodes ("A:B") := by
  exact ⟨by decide, by decide⟩

/-- Claim C9 (amended): for every colon-free raw input the canonical name
is colon-free, and for colon-free left halves the composite key
`name ++ ":" ++ region` splits back unambiguously into its components. -/
theorem colon_free_canonical :
    (∀ (x s : List Nat), (58 : Nat) ∉ x → norm_constituency x = NormRet.str s →
      (58 : Nat) ∉ s) ∧
    (∀ (a b : List Nat), (58 : Nat) ∉ a → splitKey (a ++ 58 :: b) = (a, b)) :=
  ⟨norm_no_colon, splitKey_append⟩

/-- Claim C9 (witness): both parts applied at concrete colon-free inputs. -/
theorem colon_free_canonical_witness :
    ((58 : Nat) ∉ strCodes ("DELHI")) ∧
    splitKey (strCodes ("DELHI") ++ 58 :: strCodes ("DELHI STATE")) =
      (strCodes ("DELHI"), strCodes ("DELHI STATE")) :=
  ⟨colon_free_canonical.1 (strCodes ("Delhi")) (strCodes ("DELHI")) (by decide) (by decide),
   colon_free_canonical.2 (strCodes ("DELHI")) (strCodes ("DELHI STATE")) (by decide)⟩

/-- Claim C10: the currency reader recognizes an amount only when the
case-sensitive marker `Rs` occurs (every `Rs`-free input parses to zero,
in particular the rupee-sign and lowercase variants), and the captured
digit run stops at the first character that is neither a digit nor a
comma, so a decimal fraction is truncated at the point. -/
theorem parse_money_rs_marker :
    (∀ (v : List Nat), hasRs v = false → parse_indian_money v = 0) ∧
    parse_indian_money (strCodes ("₹ 1,00,000")) = 0 ∧
    parse_indian_money (strCodes ("rs 100")) = 0 ∧
    parse_indian_money (strCodes ("Rs 12.34")) = 12 :=
  ⟨fun v h => parse_money_no_rs h, by decide, by decide, by decide⟩

/-- Claim C10 (witness): the marker condition applied at a concrete
`Rs`-free input. -/
theorem parse_money_rs_marker_witness : parse_indian_money (strCodes ("65 Crore+")) = 0 :=
  parse_money_rs_marker.1 (strCodes ("65 Crore+")) (by decide)
